import Mathlib

/-!
Verification development for the indico-comrak markdown post-processing core
(src/indico-comrak/src/lib.rs): the autolink injection pass over a parsed
document tree, URL template substitution, the target-blank HTML serializer and
the restricted plain-text serializer.

The document tree is a shallow embedding of comrak's arena tree: each node
carries an identifier (modelling arena node identity), a tagged value and an
ordered list of children.  Strings are modelled as lists of characters, with
indices counting characters; all concrete inputs used below are ASCII, where
character indices and Rust byte offsets coincide.  Rust operations that can
panic (out-of-range slices, `unwrap`, unsigned subtraction underflow) are
modelled with `Option`, `none` standing for a panic/abort.
-/

set_option maxHeartbeats 1600000
set_option maxRecDepth 100000
set_option linter.unusedVariables false

namespace IndicoMd

/-- Left curly brace character (written via its code point). -/
def lbrace : Char := Char.ofNat 123

/-- Right curly brace character (written via its code point). -/
def rbrace : Char := Char.ofNat 125

/-- Double quote character (written via its code point). -/
def dquote : Char := Char.ofNat 34

/-- Fuel-indexed worker for `replaceAll`; each step consumes at least one
character of the string and one unit of fuel, so fuel equal to the string
length never runs out (the `0, s` equation is unreachable from
`replaceAll`). -/
def replaceAllAux (pat rep : List Char) : Nat → List Char → List Char
  | _, [] => []
  | 0, s => s
  | Nat.succ fuel, c :: rest =>
    if pat ≠ [] ∧ pat.isPrefixOf (c :: rest) then
      rep ++ replaceAllAux pat rep fuel ((c :: rest).drop pat.length)
    else
      c :: replaceAllAux pat rep fuel rest

/-- Models Rust `str::replace` for a nonempty pattern: every leftmost
non-overlapping occurrence of `pat` is replaced by `rep`, scanning left to
right.  `substitute_url` only invokes `replace` with markers of the shape
`\x7bn\x7d`, which are nonempty, so the empty-pattern behaviour of
`str::replace` is unreachable there; for an empty pattern this model returns
the string unchanged. -/
def replaceAll (s pat rep : List Char) : List Char :=
  replaceAllAux pat rep s.length s

/-- The literal marker `\x7bn\x7d` built by `format!("\x7b\x7b\x7b\x7d\x7d\x7d", n)`
in `substitute_url`. -/
def marker (n : Nat) : List Char :=
  lbrace :: (toString n).toList ++ [rbrace]

/-- Embedding of `substitute_url` (src/indico-comrak/src/lib.rs lines 73-84):
iterate over the groups with their indices in ascending order, skip absent
groups, and for each present group replace every occurrence of its marker in
the current result string. -/
def substitute_url (url : List Char) (groups : List (Option (List Char))) : List Char :=
  (groups.enum.filterMap (fun p => p.2.map (fun g => (p.1, g)))).foldl
    (fun res p => replaceAll res (marker p.1) p.2) url

/-- Total character-slice used where the Rust source slices with indices that
come from the regex engine and are always in range (`m.as_str()`). -/
def sliceT (t : List Char) (a b : Nat) : List Char := (t.drop a).take (b - a)

/-- Models the Rust slice `t[a..b]`, which panics when `a > b` or `b > len`. -/
def sliceR (t : List Char) (a b : Nat) : Option (List Char) :=
  if a ≤ b ∧ b ≤ t.length then some (sliceT t a b) else none

/-- List type of a comrak list node (`ListType`). -/
inductive MdListType where
  | bullet
  | ordered
  deriving DecidableEq

/-- Delimiter of an ordered list (`ListDelimType`). -/
inductive MdListDelim where
  | period
  | paren
  deriving DecidableEq

/-- The fields of comrak's `NodeList` payload that the code under
verification reads (`list_type`, `bullet_char`, `delimiter`, `padding`),
plus the source `start` number and tightness, which the custom renderers
never read but which are part of the external data model. -/
structure MdNodeList where
  list_type : MdListType
  bullet_char : Char
  delimiter : MdListDelim
  padding : Nat
  start : Nat
  tight : Bool
  deriving DecidableEq

/-- Tagged node values: the subset of comrak's `NodeValue` variants that the
code under verification distinguishes; `heading` stands in for the node kinds
that all fall into the formatters' catch-all arms. -/
inductive NV where
  | text (s : List Char)
  | htmlInline (s : List Char)
  | link (url : List Char) (title : List Char)
  | paragraph
  | document
  | softBreak
  | lineBreak
  | code (lit : List Char)
  | codeBlock (lit : List Char)
  | strong
  | emph
  | strikethrough
  | highlight
  | superscript
  | blockQuote
  | list (l : MdNodeList)
  | item (l : MdNodeList)
  | heading
  deriving DecidableEq

/-- A node of the parsed document tree: an arena identifier, a value and an
ordered list of children.  Nodes freshly allocated by the injector pass are
given identifier 0; well-formed input trees use positive identifiers. -/
inductive RNode where
  | node (id : Nat) (val : NV) (children : List RNode)

/-- Identifier of a node. -/
def RNode.id : RNode → Nat
  | .node i _ _ => i

/-- Value of a node. -/
def RNode.val : RNode → NV
  | .node _ v _ => v

/-- Children of a node. -/
def RNode.children : RNode → List RNode
  | .node _ _ cs => cs

/-- Whether a node value is a semantic link. -/
def NV.isLink : NV → Bool
  | .link _ _ => true
  | _ => false

/-- Whether a node value is a text node. -/
def NV.isText : NV → Bool
  | .text _ => true
  | _ => false

mutual

/-- All identifiers occurring in a subtree, in pre-order. -/
def idsOf : RNode → List Nat
  | .node i _ cs => i :: idsOfList cs

/-- All identifiers occurring in a forest, in pre-order. -/
def idsOfList : List RNode → List Nat
  | [] => []
  | c :: cs => idsOf c ++ idsOfList cs

end

mutual

/-- All nodes of a subtree (including the root of the subtree), in pre-order. -/
def nodesOf : RNode → List RNode
  | .node i v cs => .node i v cs :: nodesOfList cs

/-- All nodes of a forest, in pre-order. -/
def nodesOfList : List RNode → List RNode
  | [] => []
  | c :: cs => nodesOf c ++ nodesOfList cs

end

mutual

/-- Every text node in the subtree is a leaf (true of every tree the markdown
parser produces). -/
def textLeaves : RNode → Bool
  | .node _ v cs =>
    (match v with
     | .text _ => cs.isEmpty
     | _ => true) && textLeavesList cs

/-- Every text node in the forest is a leaf. -/
def textLeavesList : List RNode → Bool
  | [] => true
  | c :: cs => textLeaves c && textLeavesList cs

end

mutual

/-- Whether the node with identifier `j` occurs in the subtree and the path
from the subtree root to it (both endpoints included) passes through a
semantic link node, the accumulator recording link nodes already passed.
This is the tree-side counterpart of `has_link_ancestor`
(src/indico-comrak/src/lib.rs lines 60-69), which walks parent pointers
upward from the node. -/
def linkOnPath : RNode → Nat → Bool → Bool
  | .node i v cs, j, acc =>
    let acc2 := acc || v.isLink
    if i = j then acc2 else linkOnPathList cs j acc2

/-- Forest version of `linkOnPath`. -/
def linkOnPathList : List RNode → Nat → Bool → Bool
  | [], _, _ => false
  | c :: cs, j, acc => linkOnPath c j acc || linkOnPathList cs j acc

end

/-- Embedding of a successfully constructed `LinkRule`: the compiled regular
expression is abstracted by its observable behaviour `captures`, modelling
`re.captures_iter` — for an input string it returns the list of captures in
match order, each capture being the ordered list of optional group spans
(character start/end offsets), index 0 being the whole match. -/
structure LinkRule where
  captures : List Char → List (List (Option (Nat × Nat)))
  url : List Char

/-- A match record collected by the injector scan: the span, the rule's URL
template and the captured group texts. -/
structure MatchRec where
  span : Nat × Nat
  url : List Char
  groups : List (Option (List Char))
  deriving DecidableEq

/-- Processing of one capture in `add_links` (lines 217-233): the group texts,
and the span computed as the minimum participating start and maximum
participating end; `min().unwrap()` / `max().unwrap()` panic (modelled `none`)
when no group participates. -/
def matchesOfCapture (t : List Char) (url : List Char)
    (cap : List (Option (Nat × Nat))) : Option MatchRec :=
  let groups := cap.map (fun c => c.map (fun sp => sliceT t sp.1 sp.2))
  match (cap.filterMap (fun c => c.map Prod.fst)).min?,
        (cap.filterMap (fun c => c.map Prod.snd)).max? with
  | some s, some e => some ⟨(s, e), url, groups⟩
  | _, _ => none

/-- All match records of one rule on one text, in capture order. -/
def ruleMatches (r : LinkRule) (t : List Char) : Option (List MatchRec) :=
  (r.captures t).mapM (matchesOfCapture t r.url)

/-- All match records of all rules on one text, in rule order then capture
order — exactly the order the Rust loops push them (lines 215-234): no
re-sorting by position across rules. -/
def textMatches : List LinkRule → List Char → Option (List MatchRec)
  | [], _ => some []
  | r :: rs, t =>
    match ruleMatches r t, textMatches rs t with
    | some ms, some rest => some (ms ++ rest)
    | _, _ => none

/-- Update of the `in_html_link` flag at one node (lines 241-248): an inline
HTML fragment starting with the literal text `<a ` sets it, one starting with
`</a>` clears it, and every other node value leaves it unchanged. -/
def flagStep (flag : Bool) (v : NV) : Bool :=
  match v with
  | .htmlInline content =>
    if ("<a ".toList).isPrefixOf content then true
    else if ("</a>".toList).isPrefixOf content then false
    else flag
  | _ => flag

mutual

/-- First phase of `add_links` (lines 198-251): walk the subtree in pre-order
threading the `in_html_link` flag; for each text node visited with the flag
clear, run all the rules and record an entry `(id, text, matches)` when any
rule matched; `none` models the per-capture `unwrap` panic. -/
def collectNode (rules : List LinkRule) :
    RNode → Bool → Option (Bool × List (Nat × List Char × List MatchRec))
  | .node i v cs, flag =>
    match v with
    | .text t =>
      if flag then collectList rules cs flag
      else
        match textMatches rules t, collectList rules cs flag with
        | some ms, some (f2, es) =>
          some (f2, (if ms.isEmpty then [] else [(i, t, ms)]) ++ es)
        | _, _ => none
    | _ => collectList rules cs (flagStep flag v)

/-- Forest version of `collectNode`. -/
def collectList (rules : List LinkRule) :
    List RNode → Bool → Option (Bool × List (Nat × List Char × List MatchRec))
  | [], flag => some (flag, [])
  | c :: cs, flag =>
    match collectNode rules c flag with
    | some (f1, es1) =>
      match collectList rules cs f1 with
      | some (f2, es2) => some (f2, es1 ++ es2)
      | none => none
    | none => none

end

/-- Remove the first child with identifier `j` from a list of siblings
(`node.detach()` on that child). -/
def eraseFirstById : List RNode → Nat → List RNode
  | [], _ => []
  | c :: cs, j => if c.id = j then cs else c :: eraseFirstById cs j

mutual

/-- Detach the node with identifier `j` from its parent and append `reps` at
the end of that parent's children — the mutation performed by the second
phase of `add_links` (lines 259-287): `node.detach()` followed by repeated
`parent.append(...)`, comrak's `append` placing each new child after all
existing children.  Fails (`none`) when no node of the tree has a child with
identifier `j`, which models the `node.parent().unwrap()` panic for a parentless
node. -/
def rewriteAt : RNode → Nat → List RNode → Option RNode
  | .node i v cs, j, reps =>
    if cs.any (fun c => c.id = j) then
      some (.node i v (eraseFirstById cs j ++ reps))
    else
      match rewriteAtList cs j reps with
      | some cs2 => some (.node i v cs2)
      | none => none

/-- Forest version of `rewriteAt`: rewrite inside the first subtree that
contains a child with identifier `j`. -/
def rewriteAtList : List RNode → Nat → List RNode → Option (List RNode)
  | [], _, _ => none
  | c :: cs, j, reps =>
    match rewriteAt c j reps with
    | some c2 => some (c2 :: cs)
    | none =>
      match rewriteAtList cs j reps with
      | some cs2 => some (c :: cs2)
      | none => none

end

/-- The nodes appended for the recorded matches of one text node
(lines 262-281): for each match, a text node carrying `text[prev_end..start]`
(possibly empty) followed by a link node whose URL is the substituted
template, whose title is `text[start..end]`, and whose single child is a text
node with the same slice; `none` models the Rust slice panics on reversed or
out-of-range ranges. -/
def buildReps (t : List Char) (prevEnd : Nat) : List MatchRec → Option (List RNode)
  | [] => some []
  | m :: rest =>
    match sliceR t prevEnd m.span.1, sliceR t m.span.1 m.span.2 with
    | some pre, some mid =>
      match buildReps t m.span.2 rest with
      | some more =>
        some (.node 0 (.text pre) []
          :: .node 0 (.link (substitute_url m.url m.groups) mid) [.node 0 (.text mid) []]
          :: more)
      | none => none
    | _, _ => none

/-- The full replacement sequence spliced in for one rewritten text node
(lines 262-287): the per-match nodes of `buildReps` and, when the last match
does not end exactly at the end of the text, a trailing text node with the
remaining suffix `text[last_end..]`.  `matches.last().unwrap()` panics on an
empty match list (unreachable from phase one, which only records nonempty
match lists). -/
def spliceReplacements (t : List Char) (ms : List MatchRec) : Option (List RNode) :=
  match buildReps t 0 ms with
  | none => none
  | some reps =>
    match ms.getLast? with
    | none => none
    | some m =>
      if m.span.2 ≠ t.length then
        match sliceR t m.span.2 t.length with
        | some tail => some (reps ++ [.node 0 (.text tail) []])
        | none => none
      else some reps

/-- Second phase of `add_links` (lines 253-288): process the deferred entries
in collection order; an entry whose node is or sits below a semantic link is
skipped, every other entry has its node detached and its replacement sequence
appended to the parent. -/
def processEntries (root : RNode) : List (Nat × List Char × List MatchRec) → Option RNode
  | [] => some root
  | (j, t, ms) :: rest =>
    if linkOnPath root j false then processEntries root rest
    else
      match spliceReplacements t ms with
      | none => none
      | some reps =>
        match rewriteAt root j reps with
        | none => none
        | some root2 => processEntries root2 rest

/-- Embedding of `add_links` (src/indico-comrak/src/lib.rs lines 197-289):
the collection phase over the whole tree followed by the rewrite phase.
`none` models a runtime panic. -/
def add_links (rules : List LinkRule) (root : RNode) : Option RNode :=
  match collectNode rules root false with
  | none => none
  | some (_, entries) => processEntries root entries

/-- Fuel-indexed worker for `findOccs`; as with `replaceAllAux`, fuel equal
to the string length never runs out. -/
def findOccsAux (pat : List Char) : Nat → List Char → Nat → List (Nat × Nat)
  | _, [], _ => []
  | 0, _, _ => []
  | Nat.succ fuel, c :: rest, i =>
    if pat ≠ [] ∧ pat.isPrefixOf (c :: rest) then
      (i, i + pat.length) :: findOccsAux pat fuel ((c :: rest).drop pat.length) (i + pat.length)
    else
      findOccsAux pat fuel rest (i + 1)

/-- All leftmost non-overlapping occurrences of a nonempty literal pattern,
with their character spans — the observable behaviour of `regex_lite`
`captures_iter` for a regular expression that is a literal string. -/
def findOccs (pat : List Char) (t : List Char) : List (Nat × Nat) :=
  findOccsAux pat t.length t 0

/-- Captures of a literal regular expression (no capture groups): each
capture has only group 0, the whole match. -/
def literalCaptures (pat : List Char) (t : List Char) : List (List (Option (Nat × Nat))) :=
  (findOccs pat t).map (fun sp => [some sp])

/-- A `LinkRule` whose pattern is a literal string: such a pattern is a valid
regular expression, and its `captures_iter` semantics is exactly
`literalCaptures`. -/
def literalRule (pat : List Char) (url : List Char) : LinkRule :=
  ⟨literalCaptures pat, url⟩

/-- Whitespace characters matched by the regex-lite whitespace class. -/
def isWs (c : Char) : Bool :=
  c = ' ' || c = '\t' || c = '\n' || c = '\r' || c = Char.ofNat 11 || c = Char.ofNat 12

/-- HTML escaping of one character as performed by comrak's `context.escape`
(the external serializer escapes quote, ampersand and angle brackets). -/
def escapeChar (c : Char) : List Char :=
  if c = dquote then ("&quot;".toList)
  else if c = '&' then ("&amp;".toList)
  else if c = '<' then ("&lt;".toList)
  else if c = '>' then ("&gt;".toList)
  else [c]

/-- HTML escaping of a string. -/
def escapeHtml (s : List Char) : List Char :=
  s.foldr (fun c acc => escapeChar c ++ acc) []

/-- Models comrak's `cr()`: emit a newline unless the output buffer is empty
or already ends with one. -/
def crWrite (buf : List Char) : List Char :=
  if buf = [] ∨ buf.getLast? = some '\n' then buf else buf ++ ['\n']

/-- Whether the regular expression for a line-break tag
(angle bracket, optional whitespace, `br`, optional whitespace, optional
slash, closing angle bracket) matches at the head of the string. -/
def brAt (s : List Char) : Bool :=
  match s with
  | '<' :: r =>
    match r.dropWhile isWs with
    | 'b' :: 'r' :: r2 =>
      match r2.dropWhile isWs with
      | '/' :: '>' :: _ => true
      | '>' :: _ => true
      | _ => false
    | _ => false
  | _ => false

/-- Whether the regular expression for an opening paragraph tag
(angle bracket, optional whitespace, `p`, optionally a whitespace character
followed by non-closing characters, closing angle bracket) matches at the
head of the string. -/
def pOpenAt (s : List Char) : Bool :=
  match s with
  | '<' :: r =>
    match r.dropWhile isWs with
    | 'p' :: r2 =>
      match r2 with
      | '>' :: _ => true
      | c :: r3 => isWs c && !((r3.dropWhile (fun d => d ≠ '>')).isEmpty)
      | [] => false
    | _ => false
  | _ => false

/-- Whether a pattern matcher succeeds at some position of the string —
`Regex::is_match` semantics for the two fixed patterns above. -/
def anyAt (p : List Char → Bool) : List Char → Bool
  | [] => false
  | c :: rest => p (c :: rest) || anyAt p rest

/-- `is_match` of the line-break tag pattern. -/
def brMatch (s : List Char) : Bool := anyAt brAt s

/-- `is_match` of the opening paragraph tag pattern. -/
def pOpenMatch (s : List Char) : Bool := anyAt pOpenAt s

/-- Lowercasing as performed by `to_lowercase` on the inline HTML snippets
considered here. -/
def lowerStr (s : List Char) : List Char := s.map Char.toLower

/-- Tightness check of comrak's default paragraph rendering: a paragraph is
rendered without tags when its grandparent is a tight list.  `anc` is the
list of ancestor values, nearest first. -/
def paraTight (anc : List NV) : Bool :=
  match anc with
  | _ :: g :: _ =>
    match g with
    | .list l => l.tight
    | _ => false
  | _ => false

/-- Models the external comrak default serializer (`format_node_default`) on
entering, for the node kinds that the two custom formatters delegate to it:
text is HTML-escaped, a paragraph opens a `<p>` tag unless in a tight list,
a soft break renders as a newline or as a hard line break depending on the
`hardbreaks` render option, and a line break renders as a hard line break.
Node kinds the claims never exercise are modelled as writing nothing. -/
def defaultEnter (hardbreaks : Bool) (anc : List NV) (v : NV) (buf : List Char) : List Char :=
  match v with
  | .text s => buf ++ escapeHtml s
  | .paragraph => if paraTight anc then buf else (crWrite buf) ++ ("<p>".toList)
  | .softBreak => buf ++ (if hardbreaks then ("<br />\n".toList) else ("\n".toList))
  | .lineBreak => buf ++ ("<br />\n".toList)
  | _ => buf

/-- Models the external comrak default serializer on leaving, for the
delegated node kinds: a paragraph closes its tag unless in a tight list. -/
def defaultLeave (hardbreaks : Bool) (anc : List NV) (v : NV) (buf : List Char) : List Char :=
  match v with
  | .paragraph => if paraTight anc then buf else buf ++ ("</p>\n".toList)
  | _ => buf

/-- Increment the last element of the list-counter stack
(`context.user.last_mut()` followed by `*v += 1`; no effect on an empty
stack). -/
def incLast : List Nat → List Nat
  | [] => []
  | [x] => [x + 1]
  | x :: y :: rest => x :: incLast (y :: rest)

/-- Entering behaviour of `plain_text_formatter`
(src/indico-comrak/src/lib.rs lines 88-176).  The item arm reproduces the
unsigned arithmetic of the source: the padding filler is
`lst.padding - item_spec.len()`, whose unsigned subtraction underflows
(panic/abort, modelled `none`) when the marker text is wider than the
configured padding; the ordered marker reads the top of the counter stack
with `last().unwrap()`, which panics on an empty stack. -/
def plainEnter (hb : Bool) (anc : List NV) (v : NV) (buf : List Char) (stack : List Nat) :
    Option (List Char × List Nat) :=
  match v with
  | .code lit => some (buf ++ escapeHtml lit, stack)
  | .codeBlock lit => some (buf ++ ("\n".toList) ++ escapeHtml lit ++ ("\n".toList), stack)
  | .htmlInline h =>
    let hl := lowerStr h
    if brMatch hl then some (buf ++ ("<br />".toList), stack)
    else if pOpenMatch hl then some (buf ++ ("<p>".toList), stack)
    else if hl = ("</p>".toList) then some (buf ++ ("</p>".toList), stack)
    else some (buf, stack)
  | .text _ | .paragraph | .softBreak | .lineBreak => some (defaultEnter hb anc v buf, stack)
  | .strong | .emph | .strikethrough | .highlight | .superscript | .blockQuote =>
    some (buf, stack)
  | .list _ => some (buf ++ ("\n".toList), stack ++ [1])
  | .item l =>
    let indent := List.replicate (2 * stack.length) ' '
    match l.list_type with
    | .bullet =>
      let spec := [l.bullet_char]
      if spec.length ≤ l.padding then
        some (buf ++ indent ++ spec ++ List.replicate (l.padding - spec.length) ' ', stack)
      else none
    | .ordered =>
      match stack.getLast? with
      | none => none
      | some ctr =>
        let spec := (toString ctr).toList ++
          [(match l.delimiter with | .period => '.' | .paren => ')')]
        if spec.length ≤ l.padding then
          some (buf ++ indent ++ spec ++ List.replicate (l.padding - spec.length) ' ', stack)
        else none
  | _ => some (buf, stack)

/-- Leaving behaviour of `plain_text_formatter`: a list writes a newline and
pops its counter (the newline is written before the entering/leaving test in
the source, hence on both), an item writes a newline and increments the
top-of-stack counter, the delegated kinds use the default serializer. -/
def plainLeave (hb : Bool) (anc : List NV) (v : NV) (buf : List Char) (stack : List Nat) :
    Option (List Char × List Nat) :=
  match v with
  | .text _ | .paragraph | .softBreak | .lineBreak => some (defaultLeave hb anc v buf, stack)
  | .list _ => some (buf ++ ("\n".toList), stack.dropLast)
  | .item _ => some (buf ++ ("\n".toList), incLast stack)
  | _ => some (buf, stack)

mutual

/-- Depth-first driver of `format_document_with_formatter` specialised to
`plain_text_formatter`: enter the node, render the children (the formatter
always returns `ChildRendering::HTML`), leave the node.  `anc` records the
ancestor values for the tight-paragraph check of the default serializer. -/
def plainNode (hb : Bool) (anc : List NV) : RNode → List Char × List Nat →
    Option (List Char × List Nat)
  | .node _ v cs, st =>
    match plainEnter hb anc v st.1 st.2 with
    | none => none
    | some st1 =>
      match plainChildren hb (v :: anc) cs st1 with
      | none => none
      | some st2 => plainLeave hb anc v st2.1 st2.2

/-- Forest version of `plainNode`. -/
def plainChildren (hb : Bool) (anc : List NV) : List RNode → List Char × List Nat →
    Option (List Char × List Nat)
  | [], st => some st
  | c :: cs, st =>
    match plainNode hb anc c st with
    | none => none
    | some st1 => plainChildren hb anc cs st1

end

/-- Rendering of a document tree by the plain-text formatter, starting from
an empty output buffer and an empty list stack (`Vec::new()`). -/
def plainRender (root : RNode) (hb : Bool) : Option (List Char) :=
  (plainNode hb [] root ([], [])).map Prod.fst

/-- The opening anchor tag written by `TargetBlankFormatter`
(src/indico-comrak/src/lib.rs lines 179-193): the URL and, when nonempty,
the title are interpolated into the attribute text verbatim by `format!`,
with no escaping. -/
def target_blank_anchor_open (url title : List Char) : List Char :=
  ("<a href=".toList) ++ [dquote] ++ url ++ [dquote] ++ [' ']
  ++ (if title.isEmpty then []
      else ("title=".toList) ++ [dquote] ++ title ++ [dquote] ++ [' '])
  ++ ("target=".toList) ++ [dquote] ++ ("_blank".toList) ++ [dquote] ++ ['>']

/-- Entering behaviour of `TargetBlankFormatter`: links get the custom
anchor tag, every other node kind falls through to the default serializer
(modelled for the kinds the claims exercise). -/
def tbEnter (hb : Bool) (anc : List NV) (v : NV) (buf : List Char) : List Char :=
  match v with
  | .link url title => buf ++ target_blank_anchor_open url title
  | .text _ | .paragraph | .softBreak | .lineBreak => defaultEnter hb anc v buf
  | _ => buf

/-- Leaving behaviour of `TargetBlankFormatter`: links close the anchor. -/
def tbLeave (hb : Bool) (anc : List NV) (v : NV) (buf : List Char) : List Char :=
  match v with
  | .link _ _ => buf ++ ("</a>".toList)
  | .text _ | .paragraph | .softBreak | .lineBreak => defaultLeave hb anc v buf
  | _ => buf

mutual

/-- Depth-first driver for `TargetBlankFormatter` (writing to an in-memory
string never fails, so this serializer is total). -/
def tbNode (hb : Bool) (anc : List NV) : RNode → List Char → List Char
  | .node _ v cs, buf => tbLeave hb anc v (tbChildren hb (v :: anc) cs (tbEnter hb anc v buf))

/-- Forest version of `tbNode`. -/
def tbChildren (hb : Bool) (anc : List NV) : List RNode → List Char → List Char
  | [], buf => buf
  | c :: cs, buf => tbChildren hb anc cs (tbNode hb anc c buf)

end

/-- Post-parse pipeline of `indico_markdown_to_html`
(src/indico-comrak/src/lib.rs lines 293-322) on an already-parsed tree:
run the autolink injector, then serialize with `TargetBlankFormatter`. -/
def indico_markdown_to_html (rules : List LinkRule) (root : RNode) (hb : Bool) :
    Option (List Char) :=
  (add_links rules root).map (fun r => tbNode hb [] r [])

/-- The unit error type `fmt::Error` reported by a failing output sink. -/
inductive FmtError where
  | mk
  deriving DecidableEq

/-- Models the error handling of `indico_markdown_to_unstyled_html`
(src/indico-comrak/src/lib.rs lines 342-351) around the serializer result:
on `Ok` the function returns `Ok(out)`; on a reported write error it runs
`unwrap_or_else(|_| unreachable!(..))`, i.e. it panics (modelled `none`)
instead of returning the error. -/
def unstyled_result_wrap (out : List Char) (r : Except FmtError Unit) :
    Option (Except FmtError (List Char)) :=
  match r with
  | .ok _ => some (.ok out)
  | .error _ => none

/-- Post-parse pipeline of `indico_markdown_to_unstyled_html` on an
already-parsed tree: serialize with `plain_text_formatter` into an in-memory
string — an infallible sink, so the serializer reports `Ok` whenever it does
not panic — and apply the error-handling wrapper. -/
def indico_markdown_to_unstyled_html (root : RNode) (hb : Bool) :
    Option (Except FmtError (List Char)) :=
  match plainRender root hb with
  | none => none
  | some out => unstyled_result_wrap out (.ok ())

/-- The present `(index, group text)` pairs of a group list, in index order —
the pairs over which the `substitute_url` loop runs. -/
def presentPairs (groups : List (Option (List Char))) : List (Nat × List Char) :=
  groups.enum.filterMap (fun p => p.2.map (fun g => (p.1, g)))

/-- Generalisation of `presentPairs` starting the enumeration at `k`. -/
def presentFrom (k : Nat) (groups : List (Option (List Char))) : List (Nat × List Char) :=
  (groups.enumFrom k).filterMap (fun p => p.2.map (fun g => (p.1, g)))

/-- A group list where only groups `m` and `n` participate: group `m`
captured the literal marker text of group `n`, and group `n` captured `g`.
Used to exercise the re-scanning behaviour of sequential substitution. -/
def rescanGroups (m n : Nat) (g : List Char) : List (Option (List Char)) :=
  List.replicate m none ++ some (marker n) :: (List.replicate (n - m - 1) none ++ [some g])

/-- Well-formedness of an input tree as produced by the markdown parser and
consumed by `add_links`: node identifiers are distinct and positive (arena
node identity; the injector's freshly allocated nodes use identifier 0),
text nodes are leaves, and the root is not a text node (it is a document
node, so every text node has a parent). -/
def goodTree (root : RNode) : Prop :=
  (idsOf root).Nodup ∧ (idsOf root).all (fun i => i != 0) = true ∧
    textLeaves root = true ∧ root.val.isText = false

/-- Whether a list of match records is sequential within a text of length
`len`, starting after offset `prev`: spans are ordered, non-overlapping and
in bounds — exactly the condition under which the splice loop's slices are
valid. -/
def seqFrom (len : Nat) : Nat → List MatchRec → Bool
  | _, [] => true
  | prev, m :: rest =>
    (Nat.ble prev m.span.1 && Nat.ble m.span.1 m.span.2 && Nat.ble m.span.2 len) &&
      seqFrom len m.span.2 rest

/-- The collection phase succeeds and every collected entry's match list is
sequential within its text. -/
def phase1Ok (rules : List LinkRule) (root : RNode) : Bool :=
  match collectNode rules root false with
  | none => false
  | some (_, es) => es.all (fun e => seqFrom e.2.1.length 0 e.2.2)

mutual

/-- Pre-order list of `(identifier, value)` pairs of a subtree — the visit
order of `root.descendants()`. -/
def preVisit : RNode → List (Nat × NV)
  | .node i v cs => (i, v) :: preVisitList cs

/-- Pre-order list of `(identifier, value)` pairs of a forest. -/
def preVisitList : List RNode → List (Nat × NV)
  | [] => []
  | c :: cs => preVisit c ++ preVisitList cs

end

/-- The value of the `in_html_link` flag when the pre-order visit reaches the
node with identifier `j` (the flag threaded over the earlier visits by
`flagStep`); the initial flag if `j` is never visited. -/
def flagBefore : List (Nat × NV) → Nat → Bool → Bool
  | [], _, flag => flag
  | (i, v) :: rest, j, flag => if i = j then flag else flagBefore rest j (flagStep flag v)

/-- Whether the node with identifier `j` is visited strictly inside a raw
HTML anchor span: after an inline HTML fragment starting with `<a ` and
before one starting with `</a>`, in document order. -/
def inRawAnchorSpan (root : RNode) (j : Nat) : Bool :=
  flagBefore (preVisit root) j false

/-- The value of the `in_html_link` flag after visiting a whole pre-order
segment: `flagStep` folded over the visited node values. -/
def flagAfter (l : List (Nat × NV)) (flag : Bool) : Bool :=
  l.foldl (fun f p => flagStep f p.2) flag

/-- Invariant of the rewrite phase: the deferred entries have pairwise
distinct positive identifiers, and each entry's node is the unique text leaf
of the current tree carrying that identifier, distinct from the root. -/
def entriesInv (root : RNode) (es : List (Nat × List Char × List MatchRec)) : Prop :=
  (es.map (fun e => e.1)).Nodup
  ∧ ∀ e ∈ es, e.1 ≠ 0 ∧ (RNode.node e.1 (.text e.2.1) []) ∈ nodesOf root
      ∧ (idsOf root).count e.1 = 1 ∧ root.id ≠ e.1

/-- Whether `needle` occurs as a contiguous substring of `hay` (used with a
nonempty needle, matching its occurrence at any position). -/
def containsSub (needle hay : List Char) : Bool :=
  anyAt (fun s => needle.isPrefixOf s) hay

/-- A rule whose pattern is the literal regular expression `FOO` and whose
template is the literal URL `u` — the autolink rule used by the concrete
claim instances. -/
def fooRule : LinkRule := literalRule ("FOO".toList) ("u".toList)

/-- The parse tree of the markdown `FOO *x*`: a paragraph whose text node
`FOO ` is followed by an emphasis sibling. -/
def c1tree : RNode :=
  .node 1 .document [.node 2 .paragraph
    [.node 3 (.text ("FOO ".toList)) [],
     .node 4 .emph [.node 5 (.text ("x".toList)) []]]]

/-- The tree `add_links` actually produces from `c1tree` with `fooRule`: the
replacement nodes (empty prefix text, injected link, trailing space text)
are appended after the emphasis node, which originally followed the matched
text node. -/
def c1result : RNode :=
  .node 1 .document [.node 2 .paragraph
    [.node 4 .emph [.node 5 (.text ("x".toList)) []],
     .node 0 (.text []) [],
     .node 0 (.link ("u".toList) ("FOO".toList)) [.node 0 (.text ("FOO".toList)) []],
     .node 0 (.text (" ".toList)) []]]

/-- The parse tree of a paragraph whose single text node is `BARFOO`, on
which the rules `FOO -> u1` and `BAR -> u2` produce out-of-order match spans
(the `FOO` match at (3,6) is collected before the `BAR` match at (0,3)). -/
def c2tree : RNode :=
  .node 1 .document [.node 2 .paragraph [.node 3 (.text ("BARFOO".toList)) []]]

/-- The two rules producing out-of-order spans on `c2tree`. -/
def c2rules : List LinkRule :=
  [literalRule ("FOO".toList) ("u1".toList), literalRule ("BAR".toList) ("u2".toList)]

/-- The parse tree of the markdown `<a>FOO</a>`: a text node between an
inline HTML fragment that opens an anchor tag without attributes and one
that closes it. -/
def c6tree : RNode :=
  .node 1 .document [.node 2 .paragraph
    [.node 3 (.htmlInline ("<a>".toList)) [],
     .node 4 (.text ("FOO".toList)) [],
     .node 5 (.htmlInline ("</a>".toList)) []]]

/-- The tree `add_links` actually produces from `c6tree` with `fooRule`: the
text node inside the raw anchor span is rewritten and a link node is
injected, because the opening-anchor detection only recognises fragments
starting with the literal `<a ` (with a space). -/
def c6result : RNode :=
  .node 1 .document [.node 2 .paragraph
    [.node 3 (.htmlInline ("<a>".toList)) [],
     .node 5 (.htmlInline ("</a>".toList)) [],
     .node 0 (.text []) [],
     .node 0 (.link ("u".toList) ("FOO".toList)) [.node 0 (.text ("FOO".toList)) []]]]

/-- The parse tree of the markdown `<a href=q>FOO</a>`: like `c6tree`, but
the opening fragment carries an attribute, so it starts with the literal
`<a ` and the detection recognises it. -/
def c6btree : RNode :=
  .node 1 .document [.node 2 .paragraph
    [.node 3 (.htmlInline ("<a href=q>".toList)) [],
     .node 4 (.text ("FOO".toList)) [],
     .node 5 (.htmlInline ("</a>".toList)) []]]

/-- An ordered-list `NodeList` payload as comrak produces for a source item
marker `1. ` (period delimiter, padding 3 = two marker characters plus one
space), with source start number `st` and tight rendering. -/
def olData (st : Nat) : MdNodeList :=
  ⟨.ordered, '-', .period, 3, st, true⟩

/-- A tight ordered-list item holding one paragraph with text `s`, with
source start number `st`. -/
def olItem (st : Nat) (s : String) : RNode :=
  .node 0 (.item (olData st)) [.node 0 .paragraph [.node 0 (.text s.toList) []]]

/-- The parse tree of the markdown `1. a\n2. b\n3. c`, parameterised by the
source start numbers recorded in the list/item payloads (which the plain
renderer never reads). -/
def c7tree (s0 s1 s2 s3 : Nat) : RNode :=
  .node 1 .document
    [.node 2 (.list (olData s0)) [olItem s1 "a", olItem s2 "b", olItem s3 "c"]]

/-- The parse tree of an ordered list whose first item contains a nested
ordered list (markdown `1. a\n    1. n\n2. b`): the nested list must restart
numbering at 1 while the outer list continues at 2. -/
def c7nested : RNode :=
  .node 1 .document
    [.node 2 (.list (olData 1))
      [.node 0 (.item (olData 1))
        [.node 0 .paragraph [.node 0 (.text ("a".toList)) []],
         .node 0 (.list (olData 1)) [olItem 1 "n"]],
       olItem 2 "b"]]

/-- The parse tree of an ordered list of `n` items each written with the
source marker `1. ` (markdown consisting of `n` lines `1. x`): every item's
padding is 3, while the renumbering counter grows up to `n`. -/
def c5tree (n : Nat) : RNode :=
  .node 1 .document [.node 2 (.list (olData 1)) (List.replicate n (olItem 1 "x"))]

/-- Replace the source `start` number of a list payload by 0. -/
def scrubNV : NV → NV
  | .list l => .list ⟨l.list_type, l.bullet_char, l.delimiter, l.padding, 0, l.tight⟩
  | .item l => .item ⟨l.list_type, l.bullet_char, l.delimiter, l.padding, 0, l.tight⟩
  | v => v

mutual

/-- Replace every recorded source `start` number in a tree by 0 (the plain
renderer never reads this field, which is proved below). -/
def scrubStart : RNode → RNode
  | .node i v cs => .node i (scrubNV v) (scrubStartList cs)

/-- Forest version of `scrubStart`. -/
def scrubStartList : List RNode → List RNode
  | [] => []
  | c :: cs => scrubStart c :: scrubStartList cs

end

/-- The parse tree of the markdown `hello\nworld`: one paragraph with two
text nodes separated by a soft break. -/
def c9tree : RNode :=
  .node 1 .document [.node 2 .paragraph
    [.node 3 (.text ("hello".toList)) [],
     .node 4 .softBreak [],
     .node 5 (.text ("world".toList)) []]]

/-- Strong induction principle for the nested tree type: to prove a property
of every node it suffices to prove it for a node assuming it for all its
children. -/
def rnodeRec {P : RNode → Prop}
    (h : ∀ i v cs, (∀ c ∈ cs, P c) → P (.node i v cs)) : ∀ n, P n
  | .node i v cs => h i v cs (fun c hc => rnodeRec h c)
termination_by n => sizeOf n
decreasing_by
  simp only [RNode.node.sizeOf_spec]
  have := List.sizeOf_lt_of_mem hc
  omega

/-- The ancestor values in force when the plain renderer reaches the items of
the `c5tree` list. -/
def c5anc : List NV := [.list (olData 1), .document]

theorem replaceAllAux_nil (pat rep : List Char) (fuel : Nat) :
    replaceAllAux pat rep fuel [] = [] := by
  cases fuel <;> rfl

theorem isPrefixOf_self (l : List Char) : l.isPrefixOf l = true := by
  induction l with
  | nil => rfl
  | cons c r ih => simp [List.isPrefixOf, ih]

/-- Replacing a string that consists exactly of the (nonempty) pattern
yields the replacement. -/
theorem replaceAll_self (pat rep : List Char) (h : pat ≠ []) :
    replaceAll pat pat rep = rep := by
  match pat, h with
  | c :: r, _ =>
    show replaceAllAux (c :: r) rep (c :: r).length (c :: r) = rep
    rw [List.length_cons, replaceAllAux, if_pos ⟨by simp, isPrefixOf_self (c :: r)⟩]
    rw [List.drop_length, replaceAllAux_nil, List.append_nil]

theorem marker_ne_nil (n : Nat) : marker n ≠ [] := by
  simp [marker]

theorem presentFrom_nil (k : Nat) : presentFrom k [] = [] := rfl

theorem presentFrom_none (k : Nat) (gs : List (Option (List Char))) :
    presentFrom k (none :: gs) = presentFrom (k + 1) gs := by
  simp [presentFrom, List.enumFrom]

theorem presentFrom_some (k : Nat) (a : List Char) (gs : List (Option (List Char))) :
    presentFrom k (some a :: gs) = (k, a) :: presentFrom (k + 1) gs := by
  simp [presentFrom, List.enumFrom]

theorem presentFrom_replicate (j k : Nat) (rest : List (Option (List Char))) :
    presentFrom k (List.replicate j none ++ rest) = presentFrom (k + j) rest := by
  induction j generalizing k with
  | zero => simp
  | succ j ih =>
    rw [List.replicate_succ, List.cons_append, presentFrom_none, ih]
    congr 1
    omega

theorem presentPairs_eq_presentFrom (gs : List (Option (List Char))) :
    presentPairs gs = presentFrom 0 gs := rfl

theorem presentFrom_lb :
    ∀ (gs : List (Option (List Char))) (k : Nat) (p : Nat × List Char),
      p ∈ presentFrom k gs → k ≤ p.1 := by
  intro gs
  induction gs with
  | nil => intro k p hp; simp [presentFrom_nil] at hp
  | cons a gs ih =>
    intro k p hp
    cases a with
    | none =>
      rw [presentFrom_none] at hp
      exact le_trans (Nat.le_succ k) (ih (k + 1) p hp)
    | some x =>
      rw [presentFrom_some] at hp
      rcases List.mem_cons.mp hp with h | h
      · subst h; exact le_refl k
      · exact le_trans (Nat.le_succ k) (ih (k + 1) p h)

/-- The present pairs are listed with strictly increasing group indices. -/
theorem presentFrom_sorted :
    ∀ (gs : List (Option (List Char))) (k : Nat),
      List.Pairwise (fun a b => a.1 < b.1) (presentFrom k gs) := by
  intro gs
  induction gs with
  | nil => intro k; simp [presentFrom_nil]
  | cons a gs ih =>
    intro k
    cases a with
    | none => rw [presentFrom_none]; exact ih (k + 1)
    | some x =>
      rw [presentFrom_some]
      refine List.Pairwise.cons ?_ (ih (k + 1))
      intro q hq
      exact lt_of_lt_of_le (Nat.lt_succ_self k) (presentFrom_lb gs (k + 1) q hq)

theorem substitute_url_eq_foldl (url : List Char) (groups : List (Option (List Char))) :
    substitute_url url groups =
      (presentPairs groups).foldl (fun res p => replaceAll res (marker p.1) p.2) url := rfl

/-- With only groups `m` and `n` present (`m < n`), where group `m`'s text is
the literal marker of group `n`, sequential substitution first rewrites the
template to that marker and then the later pass for `n` replaces it: the
marker introduced by the earlier substitution is re-scanned. -/
theorem substitute_url_rescans (m n : Nat) (g : List Char) (h : m < n) :
    substitute_url (marker m) (rescanGroups m n g) = g := by
  have e1 : presentPairs (rescanGroups m n g) = [(m, marker n), (n, g)] := by
    rw [presentPairs_eq_presentFrom, rescanGroups, presentFrom_replicate]
    rw [Nat.zero_add, presentFrom_some, presentFrom_replicate, presentFrom_some,
      presentFrom_nil]
    have : m + 1 + (n - m - 1) = n := by omega
    rw [this]
  rw [substitute_url_eq_foldl, e1]
  show replaceAll (replaceAll (marker m) (marker m) (marker n)) (marker n) g = g
  rw [replaceAll_self _ _ (marker_ne_nil m), replaceAll_self _ _ (marker_ne_nil n)]

/-- A group list with no participating group leaves the template untouched. -/
theorem substitute_url_absent (url : List Char) (n : Nat) :
    substitute_url url (List.replicate n none) = url := by
  rw [substitute_url_eq_foldl, presentPairs_eq_presentFrom]
  have : presentFrom 0 (List.replicate n none) = [] := by
    simpa using presentFrom_replicate n 0 []
  rw [this]
  rfl

/-- C3, counterexample: with groups 1 and 2 present, group 1's text being the
literal marker of group 2, the claim requires the marker introduced by the
substitution for group 1 to be left untouched (output the marker of group 2);
the code's later pass for group 2 re-scans the whole string and replaces it,
producing group 2's text instead. -/
theorem c3_counterexample :
    substitute_url (marker 1) [some ("W".toList), some (marker 2), some ("Z".toList)]
      = ("Z".toList)
    ∧ substitute_url (marker 1) [some ("W".toList), some (marker 2), some ("Z".toList)]
      ≠ (marker 2) := by
  exact ⟨rfl, by decide⟩

/-- C3 (amended): URL substitution folds one full-string replacement pass per
present group over the template, in strictly ascending index order; a group
list with no present group leaves the template untouched; and, contrary to
the original claim's final clause, a later pass for index `n` does re-scan
text substituted by an earlier pass for index `m < n`: a marker of group `n`
contained in group `m`'s substituted text is replaced by the later pass. -/
theorem c3_substitution_sequential_rescan :
    (∀ url groups, substitute_url url groups =
      (presentPairs groups).foldl (fun res p => replaceAll res (marker p.1) p.2) url)
    ∧ (∀ groups, List.Pairwise (fun a b => a.1 < b.1) (presentPairs groups))
    ∧ (∀ url n, substitute_url url (List.replicate n none) = url)
    ∧ (∀ m n g, m < n → substitute_url (marker m) (rescanGroups m n g) = g) := by
  refine ⟨substitute_url_eq_foldl, ?_, substitute_url_absent, substitute_url_rescans⟩
  intro groups
  rw [presentPairs_eq_presentFrom]
  exact presentFrom_sorted groups 0

/-- Witness for C3's amended theorem at concrete indices 1 < 2. -/
theorem c3_witness :
    1 < 2 ∧ substitute_url (marker 1) (rescanGroups 1 2 ("Z".toList)) = ("Z".toList) :=
  ⟨by decide, c3_substitution_sequential_rescan.2.2.2 1 2 ("Z".toList) (by decide)⟩

/-- C1: evaluation of `add_links` at the parse tree of `FOO *x*` with the rule
`FOO -> u`.  The emphasis node followed the matched text node in the input;
in the output the replacement sequence (prefix text, injected link, trailing
text) is appended after it, because the detached text node's replacements are
appended at the end of the parent's children.  The sibling that followed the
text node no longer follows the replacement nodes, refuting the claimed
invariant; the spec's requirement that the splice happen in place is the
clear intent, so this is recorded as a code bug. -/
theorem c1_append_breaks_sibling_order :
    add_links [fooRule] c1tree = some c1result := by rfl

/-- C4, counterexample: when the serializer reports a write error, the
error-handling wrapper of `indico_markdown_to_unstyled_html` panics
(`unwrap_or_else` with `unreachable!`, modelled `none`) instead of returning
the error result required by the claim. -/
theorem c4_counterexample :
    unstyled_result_wrap [] (.error .mk) = none
    ∧ unstyled_result_wrap [] (.error .mk) ≠ some (.error .mk) := by
  exact ⟨rfl, fun hc => Option.noConfusion hc⟩

/-- C4 (amended): `render_plain` never propagates a `RenderError`: on a
reported write error it aborts (panics) rather than returning the error, and
with the in-memory string sink — which never reports a write error — it
returns `Ok` whenever the formatter does not panic, so no execution of
`indico_markdown_to_unstyled_html` produces an error result. -/
theorem c4_never_returns_render_error :
    (∀ out e, unstyled_result_wrap out (.error e) = none)
    ∧ (∀ out, unstyled_result_wrap out (.ok ()) = some (.ok out))
    ∧ (∀ root hb e, indico_markdown_to_unstyled_html root hb ≠ some (.error e)) := by
  refine ⟨fun out e => rfl, fun out => rfl, fun root hb e => ?_⟩
  unfold indico_markdown_to_unstyled_html
  cases h : plainRender root hb <;> simp [unstyled_result_wrap]

/-- C9: on the parse tree of `hello\nworld` with no autolink rules, both
entry points render the soft break as a literal newline when `hardbreaks` is
false and as an explicit `<br />` line-break element when it is true, with
identical outputs for the same flag; the `<br />` element occurs exactly in
the hard-break outputs. -/
theorem c9_hardbreak_toggle :
    indico_markdown_to_html [] c9tree false = some ("<p>hello\nworld</p>\n".toList)
    ∧ indico_markdown_to_html [] c9tree true = some ("<p>hello<br />\nworld</p>\n".toList)
    ∧ indico_markdown_to_unstyled_html c9tree false
        = some (.ok ("<p>hello\nworld</p>\n".toList))
    ∧ indico_markdown_to_unstyled_html c9tree true
        = some (.ok ("<p>hello<br />\nworld</p>\n".toList))
    ∧ containsSub ("<br />".toList) ("<p>hello\nworld</p>\n".toList) = false
    ∧ containsSub ("<br />".toList) ("<p>hello<br />\nworld</p>\n".toList) = true
    ∧ containsSub ("\n".toList) ("<p>hello\nworld</p>\n".toList) = true := by
  exact ⟨rfl, rfl, rfl, rfl, by rfl, by rfl, by rfl⟩

theorem paraTight_scrub (anc : List NV) :
    paraTight (anc.map scrubNV) = paraTight anc := by
  match anc with
  | [] => rfl
  | [a] => rfl
  | a :: b :: r =>
    show paraTight (scrubNV a :: scrubNV b :: r.map scrubNV) = paraTight (a :: b :: r)
    cases b with
    | list l => cases l; rfl
    | _ => rfl

theorem plainEnter_scrub (hb : Bool) (anc : List NV) (v : NV) (buf : List Char)
    (stack : List Nat) :
    plainEnter hb (anc.map scrubNV) (scrubNV v) buf stack = plainEnter hb anc v buf stack := by
  cases v with
  | paragraph =>
    show plainEnter hb (anc.map scrubNV) .paragraph buf stack
      = plainEnter hb anc .paragraph buf stack
    simp [plainEnter, defaultEnter, paraTight_scrub]
  | list l => cases l; rfl
  | item l => cases l; rfl
  | _ => rfl

theorem plainLeave_scrub (hb : Bool) (anc : List NV) (v : NV) (buf : List Char)
    (stack : List Nat) :
    plainLeave hb (anc.map scrubNV) (scrubNV v) buf stack = plainLeave hb anc v buf stack := by
  cases v with
  | paragraph =>
    show plainLeave hb (anc.map scrubNV) .paragraph buf stack
      = plainLeave hb anc .paragraph buf stack
    simp [plainLeave, defaultLeave, paraTight_scrub]
  | list l => cases l; rfl
  | item l => cases l; rfl
  | _ => rfl

/-- The plain formatter never reads the recorded source `start` numbers:
rendering a tree with all of them replaced by 0 yields the same result. -/
theorem plainNode_scrub (hb : Bool) :
    ∀ n : RNode, ∀ anc st,
      plainNode hb (anc.map scrubNV) (scrubStart n) st = plainNode hb anc n st := by
  refine rnodeRec ?_
  intro i v cs ih anc st
  have hlist : ∀ cs2, (∀ c ∈ cs2, ∀ anc st,
        plainNode hb (anc.map scrubNV) (scrubStart c) st = plainNode hb anc c st) →
      ∀ anc st, plainChildren hb (anc.map scrubNV) (scrubStartList cs2) st
        = plainChildren hb anc cs2 st := by
    intro cs2 h2
    induction cs2 with
    | nil => intro anc st; rfl
    | cons c rest ihr =>
      intro anc st
      show plainChildren hb (anc.map scrubNV) (scrubStart c :: scrubStartList rest) st
        = plainChildren hb anc (c :: rest) st
      rw [plainChildren, plainChildren]
      rw [h2 c (by simp)]
      cases plainNode hb anc c st with
      | none => rfl
      | some st1 => exact ihr (fun d hd => h2 d (by simp [hd])) anc st1
  show plainNode hb (anc.map scrubNV) (.node i (scrubNV v) (scrubStartList cs)) st
    = plainNode hb anc (.node i v cs) st
  rw [plainNode, plainNode, plainEnter_scrub]
  cases hE : plainEnter hb anc v st.1 st.2 with
  | none => rfl
  | some st1 =>
    have hanc : scrubNV v :: anc.map scrubNV = (v :: anc).map scrubNV := rfl
    show (match plainChildren hb (scrubNV v :: anc.map scrubNV) (scrubStartList cs) st1 with
      | none => none
      | some st2 => plainLeave hb (anc.map scrubNV) (scrubNV v) st2.1 st2.2)
      = (match plainChildren hb (v :: anc) cs st1 with
        | none => none
        | some st2 => plainLeave hb anc v st2.1 st2.2)
    rw [hanc, hlist cs ih (v :: anc) st1]
    cases hC : plainChildren hb (v :: anc) cs st1 with
    | none => rfl
    | some st2 => exact plainLeave_scrub hb anc v st2.1 st2.2

/-- Rendering ignores the source start numbers. -/
theorem plainRender_scrub (n : RNode) (hb : Bool) :
    plainRender (scrubStart n) hb = plainRender n hb := by
  unfold plainRender
  have h := plainNode_scrub hb n [] ([], [])
  simp only [List.map_nil] at h
  rw [h]

/-- C7: the plain renderer renumbers ordered lists sequentially from 1.  The
list `1. a / 2. b / 3. c` renders its items numbered 1, 2, 3 in order
whatever start numbers the source markers recorded (the renderer reads only
its own counter stack, pushed at 1 on entering the list, incremented on
leaving each item, popped on leaving the list); a list nested inside the
first item restarts numbering at 1 while the outer list continues at 2. -/
theorem c7_ordered_list_renumbering :
    (∀ s0 s1 s2 s3 : Nat, plainRender (c7tree s0 s1 s2 s3) false
      = some ("\n  1. a\n  2. b\n  3. c\n\n".toList))
    ∧ plainRender c7nested false = some ("\n  1. a\n    1. n\n\n\n  2. b\n\n".toList) := by
  constructor
  · intro s0 s1 s2 s3
    have hs : scrubStart (c7tree s0 s1 s2 s3) = c7tree 0 0 0 0 := rfl
    rw [← plainRender_scrub (c7tree s0 s1 s2 s3) false, hs]
    rfl
  · rfl

/-- C10: `TargetBlankFormatter` interpolates a link's URL and title into the
anchor tag's attribute text verbatim, with no HTML or attribute escaping:
the URL (and the title, when nonempty) occurs as a contiguous substring of
the emitted tag, and the double quotes of the output are exactly the
structural attribute quotes (four, or six with a title) plus every double
quote contained in the URL and title, none of which is escaped. -/
theorem c10_anchor_attributes_verbatim (url title : List Char) :
    (∃ p q, target_blank_anchor_open url title = p ++ url ++ q)
    ∧ (title ≠ [] → ∃ p q, target_blank_anchor_open url title = p ++ title ++ q)
    ∧ (target_blank_anchor_open url title).count dquote =
        url.count dquote + title.count dquote + (if title = [] then 4 else 6) := by
  have h0 : (("<a href=".toList).count dquote) = 0 := by rfl
  have h1 : (([dquote] : List Char).count dquote) = 1 := by rfl
  have h2 : (([' '] : List Char).count dquote) = 0 := by rfl
  have h3 : (("title=".toList).count dquote) = 0 := by rfl
  have h4 : (("target=".toList).count dquote) = 0 := by rfl
  have h5 : (("_blank".toList).count dquote) = 0 := by rfl
  have h6 : ((['>'] : List Char).count dquote) = 0 := by rfl
  refine ⟨?_, ?_, ?_⟩
  · exact ⟨("<a href=".toList) ++ [dquote],
      [dquote] ++ [' ']
        ++ (if title.isEmpty then []
            else ("title=".toList) ++ [dquote] ++ title ++ [dquote] ++ [' '])
        ++ ("target=".toList) ++ [dquote] ++ ("_blank".toList) ++ [dquote] ++ ['>'],
      by simp [target_blank_anchor_open]⟩
  · intro ht
    have he : title.isEmpty = false := by
      cases title with
      | nil => exact absurd rfl ht
      | cons c t => rfl
    exact ⟨("<a href=".toList) ++ [dquote] ++ url ++ [dquote] ++ [' ']
        ++ ("title=".toList) ++ [dquote],
      [dquote] ++ [' '] ++ ("target=".toList) ++ [dquote] ++ ("_blank".toList)
        ++ [dquote] ++ ['>'],
      by simp [target_blank_anchor_open, he]⟩
  · by_cases ht : title = []
    · subst ht
      rw [target_blank_anchor_open]
      simp only [List.isEmpty_nil, if_true, List.append_nil, List.count_append,
        List.count_nil, h0, h1, h2, h4, h5, h6]
      omega
    · have he : title.isEmpty = false := by
        cases title with
        | nil => exact absurd rfl ht
        | cons c t => rfl
      rw [target_blank_anchor_open, he]
      simp only [Bool.false_eq_true, if_false, if_neg ht, List.count_append,
        h0, h1, h2, h3, h4, h5, h6]
      omega

/-- Witness for C10 at a URL and title both containing a double quote. -/
theorem c10_witness :
    ([dquote] ≠ ([] : List Char))
    ∧ (∃ p q, target_blank_anchor_open [dquote] [dquote] = p ++ [dquote] ++ q) :=
  ⟨fun h => List.noConfusion h, (c10_anchor_attributes_verbatim [dquote] [dquote]).2.1
    (fun h => List.noConfusion h)⟩

theorem getLast?_cons_of_ne_nil {α : Type} (a : α) (l : List α) (h : l ≠ []) :
    (a :: l).getLast? = l.getLast? := by
  cases l with
  | nil => exact absurd rfl h
  | cons b r => rfl

/-- Structure of the per-match replacement nodes: two nodes per match, the
second contribution of each match being the injected link node. -/
theorem buildReps_spec :
    ∀ (ms : List MatchRec) (t : List Char) (p : Nat) (reps : List RNode),
      buildReps t p ms = some reps →
      reps.length = 2 * ms.length
      ∧ (ms ≠ [] → ∃ url mid, reps.getLast? = some (.node 0 (.link url mid)
          [.node 0 (.text mid) []])) := by
  intro ms
  induction ms with
  | nil =>
    intro t p reps h
    simp [buildReps] at h
    subst h
    exact ⟨rfl, fun hne => absurd rfl hne⟩
  | cons m rest ih =>
    intro t p reps h
    rw [buildReps] at h
    cases hpre : sliceR t p m.span.1 with
    | none => rw [hpre] at h; exact absurd h (by simp)
    | some pre =>
      cases hmid : sliceR t m.span.1 m.span.2 with
      | none => rw [hpre, hmid] at h; exact absurd h (by simp)
      | some mid =>
        rw [hpre, hmid] at h
        cases hmore : buildReps t m.span.2 rest with
        | none => rw [hmore] at h; exact absurd h (by simp)
        | some more =>
          rw [hmore] at h
          have hr : reps = .node 0 (.text pre) []
              :: .node 0 (.link (substitute_url m.url m.groups) mid)
                  [.node 0 (.text mid) []] :: more := by
            cases h; rfl
          obtain ⟨hlen, hlast⟩ := ih t m.span.2 more hmore
          subst hr
          constructor
          · simp only [List.length_cons, hlen]; omega
          · intro _
            cases hrest : rest with
            | nil =>
              subst hrest
              simp [buildReps] at hmore
              subst hmore
              exact ⟨substitute_url m.url m.groups, mid, rfl⟩
            | cons m2 r2 =>
              have hmne : more ≠ [] := by
                intro hcon
                rw [hcon] at hlen
                simp [hrest] at hlen
              obtain ⟨url2, mid2, hl2⟩ := hlast (by simp [hrest])
              refine ⟨url2, mid2, ?_⟩
              rw [getLast?_cons_of_ne_nil _ _ (by simp [hmne]),
                getLast?_cons_of_ne_nil _ _ hmne]
              exact hl2

/-- C8: the spliced replacement sequence for a rewritten text node carries a
trailing text node exactly when the last match does not end at the end of
the text: when it ends exactly there, the sequence has two nodes per match
and ends with the last injected link node; otherwise one extra trailing text
node holding exactly the remaining suffix is appended after the last link. -/
theorem c8_trailing_text_iff (t : List Char) (ms : List MatchRec) (reps : List RNode)
    (m : MatchRec) (hs : spliceReplacements t ms = some reps)
    (hl : ms.getLast? = some m) :
    (m.span.2 = t.length →
      reps.length = 2 * ms.length
      ∧ ∃ url mid, reps.getLast? = some (.node 0 (.link url mid) [.node 0 (.text mid) []]))
    ∧ (m.span.2 ≠ t.length →
      reps.length = 2 * ms.length + 1
      ∧ reps.getLast? = some (.node 0 (.text (t.drop m.span.2)) [])) := by
  rw [spliceReplacements] at hs
  cases hbr : buildReps t 0 ms with
  | none => rw [hbr] at hs; exact absurd hs (by simp)
  | some reps0 =>
    rw [hbr, hl] at hs
    have hs2 : (if m.span.2 ≠ t.length then
        (match sliceR t m.span.2 t.length with
          | some tail => some (reps0 ++ [RNode.node 0 (NV.text tail) []])
          | none => none)
        else some reps0) = some reps := hs
    have hne : ms ≠ [] := by
      intro hcon
      rw [hcon] at hl
      exact Option.noConfusion hl
    obtain ⟨hlen0, hlast0⟩ := buildReps_spec ms t 0 reps0 hbr
    constructor
    · intro heq
      rw [if_neg (by simp [heq])] at hs2
      cases hs2
      exact ⟨hlen0, hlast0 hne⟩
    · intro hneq
      rw [if_pos hneq] at hs2
      cases htl : sliceR t m.span.2 t.length with
      | none => rw [htl] at hs2; exact absurd hs2 (by simp)
      | some tail =>
        rw [htl] at hs2
        have hbound : m.span.2 ≤ t.length ∧ t.length ≤ t.length := by
          by_contra hcon
          rw [sliceR, if_neg hcon] at htl
          exact Option.noConfusion htl
        have htail : tail = t.drop m.span.2 := by
          rw [sliceR, if_pos hbound] at htl
          have := Option.some.inj htl
          rw [← this, sliceT]
          exact List.take_of_length_le (by simp)
        cases hs2
        subst htail
        constructor
        · simp only [List.length_append, List.length_cons, List.length_nil, hlen0]
        · rw [List.getLast?_concat]

/-- Witness for C8: a text `ABCD` with a single match spanning (1,3): the
last match ends before the end of the text, so the spliced sequence has
three nodes and ends with a trailing text node holding exactly the suffix. -/
theorem c8_witness :
    spliceReplacements ("ABCD".toList) [⟨(1, 3), ("u".toList), [some ("BC".toList)]⟩]
      = some [.node 0 (.text ("A".toList)) [],
          .node 0 (.link ("u".toList) ("BC".toList)) [.node 0 (.text ("BC".toList)) []],
          .node 0 (.text ("D".toList)) []]
    ∧ [RNode.node 0 (.text ("A".toList)) [],
          .node 0 (.link ("u".toList) ("BC".toList)) [.node 0 (.text ("BC".toList)) []],
          .node 0 (.text ("D".toList)) []].getLast?
        = some (.node 0 (.text (("ABCD".toList).drop 3)) [])
    ∧ [RNode.node 0 (.text ("A".toList)) [],
          .node 0 (.link ("u".toList) ("BC".toList)) [.node 0 (.text ("BC".toList)) []],
          .node 0 (.text ("D".toList)) []].length = 2 * 1 + 1 := by
  have h := c8_trailing_text_iff ("ABCD".toList)
    [⟨(1, 3), ("u".toList), [some ("BC".toList)]⟩]
    [.node 0 (.text ("A".toList)) [],
      .node 0 (.link ("u".toList) ("BC".toList)) [.node 0 (.text ("BC".toList)) []],
      .node 0 (.text ("D".toList)) []]
    ⟨(1, 3), ("u".toList), [some ("BC".toList)]⟩ rfl rfl
  exact ⟨rfl, (h.2 (by decide)).2, (h.2 (by decide)).1⟩

/-- C2, counterexample: on the paragraph `BARFOO` with the rules `FOO -> u1`
and `BAR -> u2`, the collected match list is out of positional order (the
`FOO` match (3,6) precedes the `BAR` match (0,3)); the splice loop then
slices `text[6..0]`, a reversed range, and panics — the pass does not
complete. -/
theorem c2_counterexample : add_links c2rules c2tree = none := by rfl

/-- C6, counterexample: in the parse tree of `<a>FOO</a>` the text node lies
between an inline HTML fragment opening an anchor tag and one closing it,
yet `add_links` rewrites it and injects a link, because the opening-anchor
detection only recognises fragments starting with the literal `<a ` (with a
space and attributes), not a bare `<a>`. -/
theorem c6_counterexample :
    add_links [fooRule] c6tree = some c6result
    ∧ inRawAnchorSpan c6tree 4 = false := by
  exact ⟨rfl, rfl⟩

theorem plainNode_unfold (hb : Bool) (anc : List NV) (i : Nat) (v : NV) (cs : List RNode)
    (st : List Char × List Nat) :
    plainNode hb anc (.node i v cs) st =
      match plainEnter hb anc v st.1 st.2 with
      | none => none
      | some st1 =>
        match plainChildren hb (v :: anc) cs st1 with
        | none => none
        | some st2 => plainLeave hb anc v st2.1 st2.2 := rfl

theorem plainNode_none_of_enter (hb : Bool) (anc : List NV) (i : Nat) (v : NV)
    (cs : List RNode) (st : List Char × List Nat)
    (hE : plainEnter hb anc v st.1 st.2 = none) :
    plainNode hb anc (.node i v cs) st = none := by
  rw [plainNode_unfold, hE]

theorem plainNode_none_of_children (hb : Bool) (anc : List NV) (i : Nat) (v : NV)
    (cs : List RNode) (st st1 : List Char × List Nat)
    (hE : plainEnter hb anc v st.1 st.2 = some st1)
    (hC : plainChildren hb (v :: anc) cs st1 = none) :
    plainNode hb anc (.node i v cs) st = none := by
  rw [plainNode_unfold, hE]
  show (match plainChildren hb (v :: anc) cs st1 with
    | none => none
    | some st2 => plainLeave hb anc v st2.1 st2.2) = none
  rw [hC]

theorem plainNode_eval_some (hb : Bool) (anc : List NV) (i : Nat) (v : NV)
    (cs : List RNode) (st st1 st2 : List Char × List Nat)
    (hE : plainEnter hb anc v st.1 st.2 = some st1)
    (hC : plainChildren hb (v :: anc) cs st1 = some st2) :
    plainNode hb anc (.node i v cs) st = plainLeave hb anc v st2.1 st2.2 := by
  rw [plainNode_unfold, hE]
  show (match plainChildren hb (v :: anc) cs st1 with
    | none => none
    | some st2 => plainLeave hb anc v st2.1 st2.2) = _
  rw [hC]

theorem plainChildren_cons (hb : Bool) (anc : List NV) (c : RNode) (cs : List RNode)
    (st : List Char × List Nat) :
    plainChildren hb anc (c :: cs) st =
      match plainNode hb anc c st with
      | none => none
      | some st1 => plainChildren hb anc cs st1 := rfl

theorem plainChildren_cons_none (hb : Bool) (anc : List NV) (c : RNode) (cs : List RNode)
    (st : List Char × List Nat) (hN : plainNode hb anc c st = none) :
    plainChildren hb anc (c :: cs) st = none := by
  rw [plainChildren_cons, hN]

theorem plainChildren_cons_some (hb : Bool) (anc : List NV) (c : RNode) (cs : List RNode)
    (st st1 : List Char × List Nat) (hN : plainNode hb anc c st = some st1) :
    plainChildren hb anc (c :: cs) st = plainChildren hb anc cs st1 := by
  rw [plainChildren_cons, hN]

theorem plainChildren_append (hb : Bool) (anc : List NV) (l1 l2 : List RNode) :
    ∀ st, plainChildren hb anc (l1 ++ l2) st =
      match plainChildren hb anc l1 st with
      | none => none
      | some st1 => plainChildren hb anc l2 st1 := by
  induction l1 with
  | nil => intro st; rfl
  | cons c r ih =>
    intro st
    rw [List.cons_append, plainChildren_cons, plainChildren_cons]
    cases hN : plainNode hb anc c st with
    | none => rfl
    | some st1 => exact ih st1

/-- One successful item step: when the marker text of the current counter
value fits the configured padding, rendering the item succeeds and
increments the counter. -/
theorem olItem_step (c : Nat) (buf : List Char)
    (h : ((toString c).toList ++ ['.']).length ≤ 3) :
    ∃ buf2, plainNode false c5anc (olItem 1 "x") (buf, [c]) = some (buf2, [c + 1]) := by
  have hE : plainEnter false c5anc (.item (olData 1)) buf [c]
      = some (buf ++ List.replicate 2 ' ' ++ ((toString c).toList ++ ['.'])
          ++ List.replicate (3 - ((toString c).toList ++ ['.']).length) ' ', [c]) := by
    show (if ((toString c).toList ++ ['.']).length ≤ 3 then
        some (buf ++ List.replicate 2 ' ' ++ ((toString c).toList ++ ['.'])
          ++ List.replicate (3 - ((toString c).toList ++ ['.']).length) ' ', [c])
      else none) = _
    rw [if_pos h]
  have hC : plainChildren false (.item (olData 1) :: c5anc)
      [.node 0 .paragraph [.node 0 (.text ("x".toList)) []]]
      (buf ++ List.replicate 2 ' ' ++ ((toString c).toList ++ ['.'])
        ++ List.replicate (3 - ((toString c).toList ++ ['.']).length) ' ', [c])
      = some ((buf ++ List.replicate 2 ' ' ++ ((toString c).toList ++ ['.'])
          ++ List.replicate (3 - ((toString c).toList ++ ['.']).length) ' ') ++ ['x'], [c]) := by
    rfl
  refine ⟨(buf ++ List.replicate 2 ' ' ++ ((toString c).toList ++ ['.'])
      ++ List.replicate (3 - ((toString c).toList ++ ['.']).length) ' ' ++ ['x']) ++ ['\n'], ?_⟩
  rw [olItem, plainNode_eval_some false c5anc 0 (.item (olData 1)) _ (buf, [c]) _ _ hE hC]
  rfl

/-- One failing item step: when the marker text of the current counter value
is wider than the configured padding, the unsigned subtraction
`lst.padding - item_spec.len()` underflows and rendering the item panics. -/
theorem olItem_fail (c : Nat) (buf : List Char)
    (h : ¬ ((toString c).toList ++ ['.']).length ≤ 3) :
    plainNode false c5anc (olItem 1 "x") (buf, [c]) = none := by
  have hE : plainEnter false c5anc (.item (olData 1)) buf [c] = none := by
    show (if ((toString c).toList ++ ['.']).length ≤ 3 then
        some (buf ++ List.replicate 2 ' ' ++ ((toString c).toList ++ ['.'])
          ++ List.replicate (3 - ((toString c).toList ++ ['.']).length) ' ', [c])
      else none) = none
    rw [if_neg h]
  rw [olItem]
  exact plainNode_none_of_enter false c5anc 0 (.item (olData 1)) _ (buf, [c]) hE

/-- Rendering `n` consecutive items, starting at counter value `c`, succeeds
and advances the counter to `c + n` as long as every intermediate marker
fits the padding. -/
theorem olItems_run :
    ∀ (n : Nat) (c : Nat) (buf : List Char),
      (∀ k, k < n → ((toString (c + k)).toList ++ ['.']).length ≤ 3) →
      ∃ buf2, plainChildren false c5anc (List.replicate n (olItem 1 "x")) (buf, [c])
        = some (buf2, [c + n]) := by
  intro n
  induction n with
  | zero => intro c buf h; exact ⟨buf, rfl⟩
  | succ n ih =>
    intro c buf h
    obtain ⟨buf1, h1⟩ := olItem_step c buf (by
      have := h 0 (by omega)
      simpa using this)
    obtain ⟨buf2, h2⟩ := ih (c + 1) buf1 (fun k hk => by
      have := h (k + 1) (by omega)
      have he : c + (k + 1) = c + 1 + k := by omega
      rw [he] at this
      exact this)
    rw [List.replicate_succ]
    rw [plainChildren_cons_some false c5anc _ _ (buf, [c]) (buf1, [c + 1]) h1]
    have he2 : c + 1 + n = c + (n + 1) := by omega
    rw [he2] at h2
    exact ⟨buf2, h2⟩

/-- Rendering the 100 items of `c5tree 100` panics: the first 99 items
succeed and drive the counter to 100, whose marker `100.` is wider than the
padding 3. -/
theorem c5_items_none :
    plainChildren false c5anc (List.replicate 100 (olItem 1 "x")) (("\n".toList), [1])
      = none := by
  rw [show (100 : Nat) = 99 + 1 from rfl, List.replicate_succ']
  rw [plainChildren_append]
  obtain ⟨buf99, h99⟩ := olItems_run 99 1 ("\n".toList) (by decide)
  rw [h99]
  show plainChildren false c5anc [olItem 1 "x"] (buf99, [1 + 99]) = none
  rw [show (1 + 99 : Nat) = 100 from rfl]
  exact plainChildren_cons_none false c5anc _ _ _ (olItem_fail 100 buf99 (by decide))

/-- C5: `render_plain` is not total.  On the parse tree of a 100-item ordered
list written with one-digit markers (`1. x` on 100 lines, every item padding
3), the renumbering counter reaches 100 and the Item arm computes the
padding filler with the unsigned subtraction `lst.padding - item_spec.len()`
= `3 - 4`, which underflows: the renderer panics instead of returning a
string.  The second conjunct isolates the failing step: entering an Item
whose counter marker is wider than the configured padding fails. -/
theorem c5_renderer_panics_on_wide_marker :
    plainRender (c5tree 100) false = none
    ∧ plainEnter false c5anc (.item (olData 1)) [] [100] = none := by
  constructor
  · unfold plainRender
    have hlist : plainNode false [.document]
        (.node 2 (.list (olData 1)) (List.replicate 100 (olItem 1 "x"))) ([], []) = none := by
      refine plainNode_none_of_children false [.document] 2 (.list (olData 1)) _
        ([], []) (("\n".toList), [1]) rfl ?_
      exact c5_items_none
    have hdoc : plainNode false [] (c5tree 100) ([], []) = none := by
      rw [c5tree]
      refine plainNode_none_of_children false [] 1 .document _ ([], []) ([], []) rfl ?_
      exact plainChildren_cons_none false [.document] _ [] ([], []) hlist
    rw [hdoc]
    rfl
  · rfl

theorem idsOfList_append (l1 l2 : List RNode) :
    idsOfList (l1 ++ l2) = idsOfList l1 ++ idsOfList l2 := by
  induction l1 with
  | nil => rfl
  | cons c r ih => simp [idsOfList, ih]

theorem nodesOfList_append (l1 l2 : List RNode) :
    nodesOfList (l1 ++ l2) = nodesOfList l1 ++ nodesOfList l2 := by
  induction l1 with
  | nil => rfl
  | cons c r ih => simp [nodesOfList, ih]

theorem mem_idsOfList {j : Nat} {cs : List RNode} :
    j ∈ idsOfList cs ↔ ∃ c ∈ cs, j ∈ idsOf c := by
  induction cs with
  | nil => simp [idsOfList]
  | cons c r ih => simp [idsOfList, ih]

theorem mem_nodesOfList {x : RNode} {cs : List RNode} :
    x ∈ nodesOfList cs ↔ ∃ c ∈ cs, x ∈ nodesOf c := by
  induction cs with
  | nil => simp [nodesOfList]
  | cons c r ih => simp [nodesOfList, ih]

theorem preVisitList_append (l1 l2 : List RNode) :
    preVisitList (l1 ++ l2) = preVisitList l1 ++ preVisitList l2 := by
  induction l1 with
  | nil => rfl
  | cons c r ih => simp [preVisitList, ih]

theorem id_mem_of_mem_nodesOf :
    ∀ n : RNode, ∀ x : RNode, x ∈ nodesOf n → x.id ∈ idsOf n := by
  refine rnodeRec ?_
  intro i v cs ih x hx
  rw [nodesOf] at hx
  rcases List.mem_cons.mp hx with h | h
  · subst h
    rw [idsOf]
    exact List.mem_cons_self _ _
  · obtain ⟨c, hc, hxc⟩ := mem_nodesOfList.mp h
    rw [idsOf]
    exact List.mem_cons_of_mem _ (mem_idsOfList.mpr ⟨c, hc, ih c hc x hxc⟩)

theorem linkOnPath_false_of_not_mem :
    ∀ n : RNode, ∀ k acc, k ∉ idsOf n → linkOnPath n k acc = false := by
  refine rnodeRec ?_
  intro i v cs ih k acc hk
  rw [idsOf] at hk
  have hik : i ≠ k := fun h => hk (h ▸ List.mem_cons_self _ _)
  have hkcs : k ∉ idsOfList cs := fun h => hk (List.mem_cons_of_mem _ h)
  rw [linkOnPath, if_neg (fun h => hik h)]
  clear hk
  induction cs with
  | nil => rfl
  | cons c r ihr =>
    rw [linkOnPathList]
    have h1 : k ∉ idsOf c := fun h => hkcs (by rw [idsOfList]; exact List.mem_append_left _ h)
    have h2 : k ∉ idsOfList r := fun h => hkcs (by rw [idsOfList]; exact List.mem_append_right _ h)
    rw [ih c (List.mem_cons_self _ _) k _ h1,
      ihr (fun d hd => ih d (List.mem_cons_of_mem _ hd)) h2]
    rfl

theorem linkOnPathList_false_of_not_mem (cs : List RNode) (k : Nat) (acc : Bool)
    (hk : k ∉ idsOfList cs) : linkOnPathList cs k acc = false := by
  induction cs with
  | nil => rfl
  | cons c r ih =>
    rw [linkOnPathList]
    have h1 : k ∉ idsOf c := fun h => hk (by rw [idsOfList]; exact List.mem_append_left _ h)
    have h2 : k ∉ idsOfList r := fun h => hk (by rw [idsOfList]; exact List.mem_append_right _ h)
    rw [linkOnPath_false_of_not_mem c k _ h1, ih h2]
    rfl

theorem linkOnPathList_append (l1 l2 : List RNode) (k : Nat) (acc : Bool) :
    linkOnPathList (l1 ++ l2) k acc = (linkOnPathList l1 k acc || linkOnPathList l2 k acc) := by
  induction l1 with
  | nil => rfl
  | cons c r ih => rw [List.cons_append, linkOnPathList, linkOnPathList, ih, Bool.or_assoc]

theorem textLeavesList_iff {cs : List RNode} :
    textLeavesList cs = true ↔ ∀ c ∈ cs, textLeaves c = true := by
  induction cs with
  | nil => simp [textLeavesList]
  | cons c r ih => simp [textLeavesList, ih]

theorem textLeaves_children (i : Nat) (v : NV) (cs : List RNode)
    (h : textLeaves (.node i v cs) = true) : textLeavesList cs = true := by
  cases v
  case text s =>
    have h' : (cs.isEmpty && textLeavesList cs) = true := h
    rw [Bool.and_eq_true] at h'
    exact h'.2
  all_goals
    have h' : (true && textLeavesList cs) = true := h
    simpa using h'

theorem textLeaves_children_nil :
    ∀ n : RNode, textLeaves n = true →
      ∀ k t cs2, (.node k (.text t) cs2) ∈ nodesOf n → cs2 = [] := by
  refine rnodeRec ?_
  intro i v cs ih hleaves k t cs2 hmem
  rw [nodesOf] at hmem
  rcases List.mem_cons.mp hmem with h | h
  · injection h with h1 h2 h3
    subst h2
    subst h3
    rw [textLeaves, Bool.and_eq_true] at hleaves
    have hem : cs2.isEmpty = true := hleaves.1
    simpa using hem
  · obtain ⟨c, hc, hxc⟩ := mem_nodesOfList.mp h
    have h2 := textLeaves_children i v cs hleaves
    exact ih c hc (textLeavesList_iff.mp h2 c hc) k t cs2 hxc

theorem seqFrom_cons {len prev : Nat} {m : MatchRec} {rest : List MatchRec}
    (h : seqFrom len prev (m :: rest) = true) :
    prev ≤ m.span.1 ∧ m.span.1 ≤ m.span.2 ∧ m.span.2 ≤ len
      ∧ seqFrom len m.span.2 rest = true := by
  rw [seqFrom, Bool.and_eq_true, Bool.and_eq_true, Bool.and_eq_true] at h
  obtain ⟨⟨⟨h1, h2⟩, h3⟩, h4⟩ := h
  rw [Nat.ble_eq] at h1 h2 h3
  exact ⟨h1, h2, h3, h4⟩

theorem seqFrom_last_le {len : Nat} :
    ∀ {ms : List MatchRec} {prev : Nat}, seqFrom len prev ms = true →
      ∀ m ∈ ms, m.span.2 ≤ len := by
  intro ms
  induction ms with
  | nil => intro prev h m hm; simp at hm
  | cons m0 rest ih =>
    intro prev h m hm
    obtain ⟨h1, h2, h3, h4⟩ := seqFrom_cons h
    rcases List.mem_cons.mp hm with he | he
    · subst he; exact h3
    · exact ih h4 m he

/-- When the recorded spans are sequential and in bounds, every slice taken
by the per-match loop succeeds. -/
theorem buildReps_some :
    ∀ (ms : List MatchRec) (t : List Char) (prev : Nat),
      seqFrom t.length prev ms = true →
      ∃ reps, buildReps t prev ms = some reps := by
  intro ms
  induction ms with
  | nil => intro t prev h; exact ⟨[], rfl⟩
  | cons m rest ih =>
    intro t prev h
    obtain ⟨h1, h2, h3, h4⟩ := seqFrom_cons h
    obtain ⟨more, hmore⟩ := ih t m.span.2 h4
    refine ⟨RNode.node 0 (.text (sliceT t prev m.span.1)) []
      :: RNode.node 0 (.link (substitute_url m.url m.groups) (sliceT t m.span.1 m.span.2))
          [RNode.node 0 (.text (sliceT t m.span.1 m.span.2)) []] :: more, ?_⟩
    rw [buildReps]
    rw [show sliceR t prev m.span.1 = some (sliceT t prev m.span.1) from
      if_pos ⟨h1, le_trans h2 h3⟩]
    rw [show sliceR t m.span.1 m.span.2 = some (sliceT t m.span.1 m.span.2) from
      if_pos ⟨h2, h3⟩]
    rw [hmore]

/-- When the match list of a text node is nonempty and sequential, the splice
step succeeds. -/
theorem splice_some (t : List Char) (ms : List MatchRec)
    (hseq : seqFrom t.length 0 ms = true) (hne : ms ≠ []) :
    ∃ reps, spliceReplacements t ms = some reps := by
  obtain ⟨reps0, h0⟩ := buildReps_some ms t 0 hseq
  have hgl := List.getLast?_eq_getLast ms hne
  have hmem : ms.getLast hne ∈ ms := List.getLast_mem hne
  have hle : (ms.getLast hne).span.2 ≤ t.length := seqFrom_last_le hseq _ hmem
  rw [spliceReplacements, h0, hgl]
  show ∃ reps, (if (ms.getLast hne).span.2 ≠ t.length then
      (match sliceR t (ms.getLast hne).span.2 t.length with
        | some tail => some (reps0 ++ [RNode.node 0 (NV.text tail) []])
        | none => none)
    else some reps0) = some reps
  by_cases hEnd : (ms.getLast hne).span.2 = t.length
  · rw [if_neg (by simp [hEnd])]
    exact ⟨reps0, rfl⟩
  · rw [if_pos hEnd]
    rw [show sliceR t (ms.getLast hne).span.2 t.length
      = some (sliceT t (ms.getLast hne).span.2 t.length) from if_pos ⟨hle, le_refl _⟩]
    exact ⟨reps0 ++ [RNode.node 0 (NV.text (sliceT t (ms.getLast hne).span.2 t.length)) []],
      rfl⟩

/-- Every node freshly allocated by the splice step carries identifier 0. -/
theorem buildReps_ids_zero :
    ∀ (ms : List MatchRec) (t : List Char) (prev : Nat) (reps : List RNode),
      buildReps t prev ms = some reps → ∀ r ∈ reps, ∀ x ∈ idsOf r, x = 0 := by
  intro ms
  induction ms with
  | nil =>
    intro t prev reps h r hr
    have : reps = [] := by simpa [buildReps] using h.symm
    subst this
    simp at hr
  | cons m rest ih =>
    intro t prev reps h r hr x hx
    rw [buildReps] at h
    cases hpre : sliceR t prev m.span.1 with
    | none => rw [hpre] at h; exact absurd h (by simp)
    | some pre =>
      cases hmid : sliceR t m.span.1 m.span.2 with
      | none => rw [hpre, hmid] at h; exact absurd h (by simp)
      | some mid =>
        rw [hpre, hmid] at h
        cases hmore : buildReps t m.span.2 rest with
        | none => rw [hmore] at h; exact absurd h (by simp)
        | some more =>
          rw [hmore] at h
          have hr2 : reps = .node 0 (.text pre) []
              :: .node 0 (.link (substitute_url m.url m.groups) mid)
                  [.node 0 (.text mid) []] :: more := by cases h; rfl
          subst hr2
          rcases List.mem_cons.mp hr with he | he
          · subst he; simpa [idsOf, idsOfList] using hx
          · rcases List.mem_cons.mp he with he2 | he2
            · subst he2
              simp [idsOf, idsOfList] at hx
              exact hx
            · exact ih t m.span.2 more hmore r he2 x hx

theorem splice_ids_zero (t : List Char) (ms : List MatchRec) (reps : List RNode)
    (h : spliceReplacements t ms = some reps) : ∀ r ∈ reps, ∀ x ∈ idsOf r, x = 0 := by
  rw [spliceReplacements] at h
  cases hbr : buildReps t 0 ms with
  | none => rw [hbr] at h; exact absurd h (by simp)
  | some reps0 =>
    rw [hbr] at h
    cases hgl : ms.getLast? with
    | none => rw [hgl] at h; exact absurd h (by simp)
    | some m =>
      rw [hgl] at h
      have h2 : (if m.span.2 ≠ t.length then
          (match sliceR t m.span.2 t.length with
            | some tail => some (reps0 ++ [RNode.node 0 (NV.text tail) []])
            | none => none)
        else some reps0) = some reps := h
      by_cases hEnd : m.span.2 ≠ t.length
      · rw [if_pos hEnd] at h2
        cases htl : sliceR t m.span.2 t.length with
        | none => rw [htl] at h2; exact absurd h2 (by simp)
        | some tail =>
          rw [htl] at h2
          have hr2 : reps = reps0 ++ [.node 0 (.text tail) []] := by cases h2; rfl
          subst hr2
          intro r hr x hx
          rcases List.mem_append.mp hr with he | he
          · exact buildReps_ids_zero ms t 0 reps0 hbr r he x hx
          · have : r = .node 0 (.text tail) [] := by simpa using he
            subst this
            simpa [idsOf, idsOfList] using hx
      · rw [if_neg hEnd] at h2
        have hr2 : reps = reps0 := by cases h2; rfl
        subst hr2
        exact buildReps_ids_zero ms t 0 reps hbr

theorem ids_zero_count {reps : List RNode}
    (h : ∀ r ∈ reps, ∀ x ∈ idsOf r, x = 0) (k : Nat) (hk : k ≠ 0) :
    (idsOfList reps).count k = 0 := by
  rw [List.count_eq_zero]
  intro hmem
  obtain ⟨r, hr, hx⟩ := mem_idsOfList.mp hmem
  exact hk (h r hr k hx)

theorem ids_zero_not_mem {reps : List RNode}
    (h : ∀ r ∈ reps, ∀ x ∈ idsOf r, x = 0) (k : Nat) (hk : k ≠ 0) :
    k ∉ idsOfList reps := by
  intro hmem
  obtain ⟨r, hr, hx⟩ := mem_idsOfList.mp hmem
  exact hk (h r hr k hx)

theorem id_mem_idsOf (n : RNode) : n.id ∈ idsOf n := by
  cases n with
  | node i v cs =>
    rw [idsOf]
    exact List.mem_cons_self _ _

theorem eraseFirstById_no_match :
    ∀ (cs : List RNode) (j : Nat), (∀ c ∈ cs, c.id ≠ j) → eraseFirstById cs j = cs := by
  intro cs j h
  induction cs with
  | nil => rfl
  | cons c rest ih =>
    rw [eraseFirstById, if_neg (h c (List.mem_cons_self _ _))]
    rw [ih (fun d hd => h d (List.mem_cons_of_mem _ hd))]

theorem rewriteAt_mem_ids :
    ∀ n : RNode, ∀ j reps r, rewriteAt n j reps = some r → j ∈ idsOf n := by
  refine rnodeRec ?_
  intro i v cs ih j reps r h
  have hlist : ∀ (cs' : List RNode),
      (∀ c ∈ cs', ∀ j2 reps2 r2, rewriteAt c j2 reps2 = some r2 → j2 ∈ idsOf c) →
      ∀ cs2, rewriteAtList cs' j reps = some cs2 → j ∈ idsOfList cs' := by
    intro cs'
    induction cs' with
    | nil => intro hpt cs2 hh; exact absurd hh (by simp [rewriteAtList])
    | cons c rest ihr =>
      intro hpt cs2 hh
      rw [rewriteAtList] at hh
      cases hrc : rewriteAt c j reps with
      | some c2 =>
        rw [idsOfList]
        exact List.mem_append_left _ (hpt c (List.mem_cons_self _ _) j reps c2 hrc)
      | none =>
        rw [hrc] at hh
        cases hrl : rewriteAtList rest j reps with
        | none => rw [hrl] at hh; exact absurd hh (by simp)
        | some cs2' =>
          rw [idsOfList]
          exact List.mem_append_right _
            (ihr (fun d hd => hpt d (List.mem_cons_of_mem _ hd)) cs2' hrl)
  rw [rewriteAt] at h
  by_cases hany : cs.any (fun c => c.id = j)
  · obtain ⟨c, hc, hcj⟩ := List.any_eq_true.mp hany
    have hcj2 : c.id = j := by simpa using hcj
    rw [idsOf]
    exact List.mem_cons_of_mem _ (mem_idsOfList.mpr ⟨c, hc, hcj2 ▸ id_mem_idsOf c⟩)
  · rw [if_neg hany] at h
    cases hls : rewriteAtList cs j reps with
    | none => rw [hls] at h; exact absurd h (by simp)
    | some cs2 =>
      rw [idsOf]
      exact List.mem_cons_of_mem _ (hlist cs ih cs2 hls)

theorem rewriteAtList_mem_ids :
    ∀ (cs : List RNode) (j : Nat) (reps : List RNode) (cs2 : List RNode),
      rewriteAtList cs j reps = some cs2 → j ∈ idsOfList cs := by
  intro cs j reps
  induction cs with
  | nil => intro cs2 h; exact absurd h (by simp [rewriteAtList])
  | cons c rest ih =>
    intro cs2 h
    rw [rewriteAtList] at h
    cases hrc : rewriteAt c j reps with
    | some c2 =>
      rw [idsOfList]
      exact List.mem_append_left _ (rewriteAt_mem_ids c j reps c2 hrc)
    | none =>
      rw [hrc] at h
      cases hrl : rewriteAtList rest j reps with
      | none => rw [hrl] at h; exact absurd h (by simp)
      | some cs2' =>
        rw [idsOfList]
        exact List.mem_append_right _ (ih cs2' hrl)

theorem rewriteAt_some :
    ∀ n : RNode, ∀ j reps, j ∈ idsOf n → n.id ≠ j → ∃ r, rewriteAt n j reps = some r := by
  refine rnodeRec ?_
  intro i v cs ih j reps hj hij
  have hij2 : i ≠ j := by simpa [RNode.id] using hij
  have hjcs : j ∈ idsOfList cs := by
    rw [idsOf] at hj
    rcases List.mem_cons.mp hj with h | h
    · exact absurd h.symm hij2
    · exact h
  have hlist : ∀ (cs' : List RNode),
      (∀ c ∈ cs', ∀ j2 reps2, j2 ∈ idsOf c → c.id ≠ j2 → ∃ r, rewriteAt c j2 reps2 = some r) →
      (∀ c ∈ cs', c.id ≠ j) → j ∈ idsOfList cs' →
      ∃ cs2, rewriteAtList cs' j reps = some cs2 := by
    intro cs'
    induction cs' with
    | nil => intro hpt hnoc hjm; simp [idsOfList] at hjm
    | cons c rest ihr =>
      intro hpt hnoc hjm
      rw [rewriteAtList]
      cases hrc : rewriteAt c j reps with
      | some c2 => exact ⟨c2 :: rest, rfl⟩
      | none =>
        have hjrest : j ∈ idsOfList rest := by
          rw [idsOfList] at hjm
          rcases List.mem_append.mp hjm with hmm | hmm
          · obtain ⟨c2, hc2⟩ := hpt c (List.mem_cons_self _ _) j reps hmm
              (hnoc c (List.mem_cons_self _ _))
            rw [hc2] at hrc
            exact absurd hrc (by simp)
          · exact hmm
        obtain ⟨cs2', hcs2'⟩ := ihr (fun d hd => hpt d (List.mem_cons_of_mem _ hd))
          (fun d hd => hnoc d (List.mem_cons_of_mem _ hd)) hjrest
        rw [hcs2']
        exact ⟨c :: cs2', rfl⟩
  rw [rewriteAt]
  by_cases hany : cs.any (fun c => c.id = j)
  · rw [if_pos hany]
    exact ⟨_, rfl⟩
  · rw [if_neg hany]
    have hnoc : ∀ c ∈ cs, c.id ≠ j := by
      intro c hc hcj
      exact hany (List.any_eq_true.mpr ⟨c, hc, by simpa using hcj⟩)
    obtain ⟨cs2, hcs2⟩ := hlist cs ih hnoc hjcs
    rw [hcs2]
    exact ⟨.node i v cs2, rfl⟩

theorem leaf_id_mem {j : Nat} {tj : List Char} {cs : List RNode}
    (h : (RNode.node j (.text tj) []) ∈ nodesOfList cs) : j ∈ idsOfList cs := by
  obtain ⟨c, hc, hxc⟩ := mem_nodesOfList.mp h
  exact mem_idsOfList.mpr ⟨c, hc, id_mem_of_mem_nodesOf c _ hxc⟩

/-- Detaching the unique text-leaf with identifier `j` from a forest keeps
every other identifier's multiplicity, keeps every other text leaf, and does
not change the link-on-path observations for other identifiers. -/
theorem erase_leaf_facts :
    ∀ (cs : List RNode) (j : Nat) (tj : List Char),
      (RNode.node j (.text tj) []) ∈ nodesOfList cs →
      (idsOfList cs).count j = 1 →
      (∀ k, k ≠ j → (idsOfList (eraseFirstById cs j)).count k = (idsOfList cs).count k)
      ∧ (∀ k tk, k ≠ j →
          (RNode.node k (.text tk) []) ∈ nodesOfList cs →
          (RNode.node k (.text tk) []) ∈ nodesOfList (eraseFirstById cs j))
      ∧ (∀ k acc, k ≠ j →
          linkOnPathList (eraseFirstById cs j) k acc = linkOnPathList cs k acc) := by
  intro cs
  induction cs with
  | nil =>
    intro j tj hmem hcount
    simp [nodesOfList] at hmem
  | cons c rest ih =>
    intro j tj hmem hcount
    rw [idsOfList, List.count_append] at hcount
    by_cases hc : c.id = j
    · have herase : eraseFirstById (c :: rest) j = rest := by
        rw [eraseFirstById, if_pos hc]
      have hjc : j ∈ idsOf c := hc ▸ id_mem_idsOf c
      have hcpos : 0 < (idsOf c).count j := List.count_pos_iff.mpr hjc
      have hrest0 : (idsOfList rest).count j = 0 := by omega
      have hleafc : (RNode.node j (.text tj) []) ∈ nodesOf c := by
        rw [nodesOfList] at hmem
        rcases List.mem_append.mp hmem with h | h
        · exact h
        · exact absurd (List.count_pos_iff.mpr (leaf_id_mem h)) (by omega)
      have hceq : c = RNode.node j (.text tj) [] := by
        cases c with
        | node ic vc cc =>
          rw [nodesOf] at hleafc
          rcases List.mem_cons.mp hleafc with he | he
          · exact he.symm
          · exfalso
            have hjcc : j ∈ idsOfList cc := leaf_id_mem he
            have hic : ic = j := hc
            have h2 : 2 ≤ (idsOf (RNode.node ic vc cc)).count j := by
              have hpos := List.count_pos_iff.mpr hjcc
              rw [idsOf, hic, List.count_cons_self]
              omega
            omega
      subst hceq
      rw [herase]
      refine ⟨?_, ?_, ?_⟩
      · intro k hk
        rw [idsOfList, List.count_append]
        have : (idsOf (RNode.node j (NV.text tj) [])).count k = 0 := by
          simp [idsOf, idsOfList, List.count_cons]
          omega
        omega
      · intro k tk hk hkm
        rw [nodesOfList] at hkm
        rcases List.mem_append.mp hkm with h | h
        · exfalso
          rw [nodesOf] at h
          rcases List.mem_cons.mp h with he | he
          · exact hk (by cases he; rfl)
          · simp [nodesOfList] at he
        · exact h
      · intro k acc hk
        have hlp : linkOnPath (RNode.node j (NV.text tj) []) k acc = false := by
          rw [linkOnPath, if_neg (fun h => hk h.symm)]
          rfl
        rw [linkOnPathList, hlp, Bool.false_or]
    · have herase : eraseFirstById (c :: rest) j = c :: eraseFirstById rest j := by
        rw [eraseFirstById, if_neg hc]
      by_cases hwhere : (RNode.node j (.text tj) []) ∈ nodesOf c
      · have hjc : j ∈ idsOf c :=
          id_mem_of_mem_nodesOf c _ hwhere
        have hcpos : 0 < (idsOf c).count j := List.count_pos_iff.mpr hjc
        have hrest0 : (idsOfList rest).count j = 0 := by omega
        have hnotop : ∀ d ∈ rest, d.id ≠ j := by
          intro d hd hdj
          have : j ∈ idsOfList rest := mem_idsOfList.mpr ⟨d, hd, hdj ▸ id_mem_idsOf d⟩
          exact absurd (List.count_pos_iff.mpr this) (by omega)
        rw [herase, eraseFirstById_no_match rest j hnotop]
        exact ⟨fun _ _ => rfl, fun _ _ _ h => h, fun _ _ _ => rfl⟩
      · have hmemr : (RNode.node j (.text tj) []) ∈ nodesOfList rest := by
          rw [nodesOfList] at hmem
          rcases List.mem_append.mp hmem with h | h
          · exact absurd h hwhere
          · exact h
        have hrpos : 0 < (idsOfList rest).count j := List.count_pos_iff.mpr (leaf_id_mem hmemr)
        have hcr : (idsOfList rest).count j = 1 := by omega
        obtain ⟨e1, e2, e3⟩ := ih j tj hmemr hcr
        rw [herase]
        refine ⟨?_, ?_, ?_⟩
        · intro k hk
          rw [idsOfList, List.count_append, idsOfList, List.count_append, e1 k hk]
        · intro k tk hk hkm
          rw [nodesOfList] at hkm
          rcases List.mem_append.mp hkm with h | h
          · rw [nodesOfList]
            exact List.mem_append_left _ h
          · rw [nodesOfList]
            exact List.mem_append_right _ (e2 k tk hk h)
        · intro k acc hk
          rw [linkOnPathList, linkOnPathList, e3 k acc hk]

theorem count_cons_ne {a b : Nat} {l : List Nat} (h : b ≠ a) :
    (b :: l).count a = l.count a := by
  rw [List.count_cons]
  simp [h]

/-- Core preservation property of the rewrite mutation: detaching the unique
text-leaf `j` and appending the freshly allocated (identifier 0) replacement
nodes keeps the root's identity and value, every other positive identifier's
multiplicity, every other text leaf, and every other positive identifier's
link-on-path observation. -/
theorem rewriteAt_preserves :
    ∀ n : RNode, ∀ j tj reps n2,
      (RNode.node j (.text tj) []) ∈ nodesOf n →
      (idsOf n).count j = 1 →
      (∀ r ∈ reps, ∀ x ∈ idsOf r, x = 0) →
      j ≠ 0 →
      rewriteAt n j reps = some n2 →
      n2.id = n.id ∧ n2.val = n.val
      ∧ (∀ k, k ≠ j → k ≠ 0 → (idsOf n2).count k = (idsOf n).count k)
      ∧ (∀ k tk, k ≠ j → (RNode.node k (.text tk) []) ∈ nodesOf n →
          (RNode.node k (.text tk) []) ∈ nodesOf n2)
      ∧ (∀ k acc, k ≠ j → k ≠ 0 → linkOnPath n2 k acc = linkOnPath n k acc) := by
  refine rnodeRec ?_
  intro i v cs ih j tj reps n2 hmem hcount hreps hj0 hrw
  have hlist : ∀ (cs' : List RNode),
      (∀ c ∈ cs', ∀ j2 tj2 reps2 m2,
        (RNode.node j2 (.text tj2) []) ∈ nodesOf c →
        (idsOf c).count j2 = 1 →
        (∀ r ∈ reps2, ∀ x ∈ idsOf r, x = 0) →
        j2 ≠ 0 →
        rewriteAt c j2 reps2 = some m2 →
        m2.id = c.id ∧ m2.val = c.val
        ∧ (∀ k, k ≠ j2 → k ≠ 0 → (idsOf m2).count k = (idsOf c).count k)
        ∧ (∀ k tk, k ≠ j2 → (RNode.node k (.text tk) []) ∈ nodesOf c →
            (RNode.node k (.text tk) []) ∈ nodesOf m2)
        ∧ (∀ k acc, k ≠ j2 → k ≠ 0 → linkOnPath m2 k acc = linkOnPath c k acc)) →
      ∀ cs2, (RNode.node j (.text tj) []) ∈ nodesOfList cs' →
        (idsOfList cs').count j = 1 →
        rewriteAtList cs' j reps = some cs2 →
        (∀ k, k ≠ j → k ≠ 0 → (idsOfList cs2).count k = (idsOfList cs').count k)
        ∧ (∀ k tk, k ≠ j → (RNode.node k (.text tk) []) ∈ nodesOfList cs' →
            (RNode.node k (.text tk) []) ∈ nodesOfList cs2)
        ∧ (∀ k acc, k ≠ j → k ≠ 0 →
            linkOnPathList cs2 k acc = linkOnPathList cs' k acc) := by
    intro cs'
    induction cs' with
    | nil => intro hpt cs2 hm hc hr; exact absurd hr (by simp [rewriteAtList])
    | cons c rest ihr =>
      intro hpt cs2 hm hc hr
      rw [rewriteAtList] at hr
      rw [idsOfList, List.count_append] at hc
      cases hrc : rewriteAt c j reps with
      | some c2 =>
        rw [hrc] at hr
        have hr2 : some (c2 :: rest) = some cs2 := hr
        have hcs2 : cs2 = c2 :: rest := (Option.some.inj hr2).symm
        subst hcs2
        have hjc : j ∈ idsOf c := rewriteAt_mem_ids c j reps c2 hrc
        have hcpos := List.count_pos_iff.mpr hjc
        have hrest0 : (idsOfList rest).count j = 0 := by omega
        have hmc : (RNode.node j (.text tj) []) ∈ nodesOf c := by
          rw [nodesOfList] at hm
          rcases List.mem_append.mp hm with h | h
          · exact h
          · exact absurd (List.count_pos_iff.mpr (leaf_id_mem h)) (by omega)
        have hcc : (idsOf c).count j = 1 := by omega
        obtain ⟨hid, hval, hcnt, hmemb, hlink⟩ :=
          hpt c (List.mem_cons_self _ _) j tj reps c2 hmc hcc hreps hj0 hrc
        refine ⟨?_, ?_, ?_⟩
        · intro k hk hk0
          rw [idsOfList, List.count_append, idsOfList, List.count_append, hcnt k hk hk0]
        · intro k tk hk hkm
          rw [nodesOfList] at hkm
          rw [nodesOfList]
          rcases List.mem_append.mp hkm with h | h
          · exact List.mem_append_left _ (hmemb k tk hk h)
          · exact List.mem_append_right _ h
        · intro k acc hk hk0
          rw [linkOnPathList, linkOnPathList, hlink k acc hk hk0]
      | none =>
        rw [hrc] at hr
        cases hrl : rewriteAtList rest j reps with
        | none =>
          rw [hrl] at hr
          have hr2 : (none : Option (List RNode)) = some cs2 := hr
          exact absurd hr2 (by simp)
        | some cs2' =>
          rw [hrl] at hr
          have hr2 : some (c :: cs2') = some cs2 := hr
          have hcs2 : cs2 = c :: cs2' := (Option.some.inj hr2).symm
          subst hcs2
          have hjrest : j ∈ idsOfList rest := rewriteAtList_mem_ids rest j reps cs2' hrl
          have hrpos := List.count_pos_iff.mpr hjrest
          have hc0 : (idsOf c).count j = 0 := by omega
          have hmr : (RNode.node j (.text tj) []) ∈ nodesOfList rest := by
            rw [nodesOfList] at hm
            rcases List.mem_append.mp hm with h | h
            · have hjc : j ∈ idsOf c := id_mem_of_mem_nodesOf c _ h
              exact absurd (List.count_pos_iff.mpr hjc) (by omega)
            · exact h
          have hcr : (idsOfList rest).count j = 1 := by omega
          obtain ⟨l1, l2, l3⟩ :=
            ihr (fun d hd => hpt d (List.mem_cons_of_mem _ hd)) cs2' hmr hcr hrl
          refine ⟨?_, ?_, ?_⟩
          · intro k hk hk0
            rw [idsOfList, List.count_append, idsOfList, List.count_append, l1 k hk hk0]
          · intro k tk hk hkm
            rw [nodesOfList] at hkm
            rw [nodesOfList]
            rcases List.mem_append.mp hkm with h | h
            · exact List.mem_append_left _ h
            · exact List.mem_append_right _ (l2 k tk hk h)
          · intro k acc hk hk0
            rw [linkOnPathList, linkOnPathList, l3 k acc hk hk0]
  rw [rewriteAt] at hrw
  by_cases hany : cs.any (fun c => c.id = j)
  · rw [if_pos hany] at hrw
    have hn2 : n2 = RNode.node i v (eraseFirstById cs j ++ reps) :=
      (Option.some.inj hrw).symm
    obtain ⟨c, hcmem, hcid⟩ := List.any_eq_true.mp hany
    have hcid2 : c.id = j := by simpa using hcid
    have hij : i ≠ j := by
      intro hij
      have hjcs : j ∈ idsOfList cs := mem_idsOfList.mpr ⟨c, hcmem, hcid2 ▸ id_mem_idsOf c⟩
      have := List.count_pos_iff.mpr hjcs
      rw [idsOf, hij, List.count_cons_self] at hcount
      omega
    have hmemcs : (RNode.node j (.text tj) []) ∈ nodesOfList cs := by
      rw [nodesOf] at hmem
      rcases List.mem_cons.mp hmem with h | h
      · exact absurd (by injection h with h1 _ _; exact h1.symm) hij
      · exact h
    have hccs : (idsOfList cs).count j = 1 := by
      rw [idsOf, count_cons_ne hij] at hcount
      exact hcount
    obtain ⟨e1, e2, e3⟩ := erase_leaf_facts cs j tj hmemcs hccs
    subst hn2
    refine ⟨rfl, rfl, ?_, ?_, ?_⟩
    · intro k hk hk0
      rw [idsOf, idsOf, List.count_cons, List.count_cons, idsOfList_append,
        List.count_append, e1 k hk, ids_zero_count hreps k hk0]
      omega
    · intro k tk hk hkm
      rw [nodesOf] at hkm
      rcases List.mem_cons.mp hkm with h | h
      · exfalso
        injection h with h1 h2 h3
        rw [← h3] at hcmem
        simp at hcmem
      · rw [nodesOf]
        refine List.mem_cons_of_mem _ ?_
        rw [nodesOfList_append]
        exact List.mem_append_left _ (e2 k tk hk h)
    · intro k acc hk hk0
      rw [linkOnPath, linkOnPath]
      by_cases hik : i = k
      · rw [if_pos hik, if_pos hik]
      · rw [if_neg hik, if_neg hik, linkOnPathList_append, e3 k _ hk,
          linkOnPathList_false_of_not_mem reps k _ (ids_zero_not_mem hreps k hk0),
          Bool.or_false]
  · rw [if_neg hany] at hrw
    cases hls : rewriteAtList cs j reps with
    | none => rw [hls] at hrw; exact absurd hrw (by simp)
    | some cs2 =>
      rw [hls] at hrw
      have hrw2 : some (RNode.node i v cs2) = some n2 := hrw
      have hn2 : n2 = RNode.node i v cs2 := (Option.some.inj hrw2).symm
      have hij : i ≠ j := by
        intro hij
        have hjcs : j ∈ idsOfList cs := rewriteAtList_mem_ids cs j reps cs2 hls
        have := List.count_pos_iff.mpr hjcs
        rw [idsOf, hij, List.count_cons_self] at hcount
        omega
      have hmemcs : (RNode.node j (.text tj) []) ∈ nodesOfList cs := by
        rw [nodesOf] at hmem
        rcases List.mem_cons.mp hmem with h | h
        · exact absurd (by injection h with h1 _ _; exact h1.symm) hij
        · exact h
      have hccs : (idsOfList cs).count j = 1 := by
        rw [idsOf, count_cons_ne hij] at hcount
        exact hcount
      obtain ⟨l1, l2, l3⟩ := hlist cs ih cs2 hmemcs hccs hls
      subst hn2
      refine ⟨rfl, rfl, ?_, ?_, ?_⟩
      · intro k hk hk0
        rw [idsOf, idsOf, List.count_cons, List.count_cons, l1 k hk hk0]
      · intro k tk hk hkm
        rw [nodesOf] at hkm
        rcases List.mem_cons.mp hkm with h | h
        · exfalso
          injection h with h1 h2 h3
          rw [← h3] at hls
          exact absurd hls (by simp [rewriteAtList])
        · rw [nodesOf]
          exact List.mem_cons_of_mem _ (l2 k tk hk h)
      · intro k acc hk hk0
        rw [linkOnPath, linkOnPath]
        by_cases hik : i = k
        · rw [if_pos hik, if_pos hik]
        · rw [if_neg hik, if_neg hik, l3 k _ hk hk0]

/-- Restriction of the entries invariant to the tail, after rewriting the
head entry. -/
theorem entriesInv_step (root root2 : RNode) (j : Nat) (t : List Char)
    (ms : List MatchRec) (rest : List (Nat × List Char × List MatchRec))
    (reps : List RNode)
    (hInv : entriesInv root ((j, t, ms) :: rest))
    (hreps : ∀ r ∈ reps, ∀ x ∈ idsOf r, x = 0)
    (hrew : rewriteAt root j reps = some root2) :
    entriesInv root2 rest := by
  obtain ⟨hnd, hall⟩ := hInv
  obtain ⟨hj0, hjm, hjc, hjr⟩ := hall (j, t, ms) (List.mem_cons_self _ _)
  obtain ⟨hid, hval, hcnt, hmemb, hlink⟩ :=
    rewriteAt_preserves root j t reps root2 hjm hjc hreps hj0 hrew
  constructor
  · exact (List.nodup_cons.mp hnd).2
  · intro e he
    obtain ⟨h0, hm, hc, hr⟩ := hall e (List.mem_cons_of_mem _ he)
    have hej : e.1 ≠ j := by
      intro hcon
      exact (List.nodup_cons.mp hnd).1 (hcon ▸ List.mem_map.mpr ⟨e, he, rfl⟩)
    exact ⟨h0, hmemb e.1 e.2.1 hej hm, (hcnt e.1 hej h0).trans hc,
      fun hcon => hr (hid ▸ hcon)⟩

/-- Rewrite-phase totality: with the entries invariant and sequential
nonempty match lists, processing the deferred entries never panics. -/
theorem processEntries_some :
    ∀ (es : List (Nat × List Char × List MatchRec)) (root : RNode),
      entriesInv root es →
      (∀ e ∈ es, seqFrom e.2.1.length 0 e.2.2 = true ∧ e.2.2 ≠ []) →
      ∃ r, processEntries root es = some r := by
  intro es
  induction es with
  | nil => intro root _ _; exact ⟨root, rfl⟩
  | cons e rest ih =>
    obtain ⟨j, t, ms⟩ := e
    intro root hInv hseq
    rw [processEntries]
    cases hlp : linkOnPath root j false with
    | true =>
      rw [if_pos rfl]
      refine ih root ⟨(List.nodup_cons.mp hInv.1).2, ?_⟩
        (fun e he => hseq e (List.mem_cons_of_mem _ he))
      intro e he
      exact hInv.2 e (List.mem_cons_of_mem _ he)
    | false =>
      rw [if_neg (by simp)]
      obtain ⟨hseq1, hne1⟩ := hseq (j, t, ms) (List.mem_cons_self _ _)
      obtain ⟨reps, hreps⟩ := splice_some t ms hseq1 hne1
      obtain ⟨hj0, hjm, hjc, hjr⟩ := hInv.2 (j, t, ms) (List.mem_cons_self _ _)
      have hjid : j ∈ idsOf root := id_mem_of_mem_nodesOf root _ hjm
      obtain ⟨root2, hrew⟩ := rewriteAt_some root j reps hjid (fun h => hjr h)
      obtain ⟨r, hr⟩ := ih root2
        (entriesInv_step root root2 j t ms rest reps hInv
          (splice_ids_zero t ms reps hreps) hrew)
        (fun e he => hseq e (List.mem_cons_of_mem _ he))
      refine ⟨r, ?_⟩
      show (match spliceReplacements t ms with
        | none => none
        | some reps2 =>
          match rewriteAt root j reps2 with
          | none => none
          | some root3 => processEntries root3 rest) = some r
      rw [hreps]
      show (match rewriteAt root j reps with
        | none => none
        | some root3 => processEntries root3 rest) = some r
      rw [hrew]
      exact hr

theorem collect_lift (i : Nat) (v : NV) (cs : List RNode)
    (es : List (Nat × List Char × List MatchRec))
    (hsub : List.Sublist (es.map (fun e => e.1)) (idsOfList cs))
    (hmem : ∀ e ∈ es, (∃ cs2, (RNode.node e.1 (.text e.2.1) cs2) ∈ nodesOfList cs)
      ∧ e.2.2 ≠ []) :
    List.Sublist (es.map (fun e => e.1)) (idsOf (.node i v cs))
    ∧ ∀ e ∈ es, (∃ cs2, (RNode.node e.1 (.text e.2.1) cs2) ∈ nodesOf (.node i v cs))
      ∧ e.2.2 ≠ [] := by
  constructor
  · rw [idsOf]
    exact hsub.cons i
  · intro e he
    obtain ⟨⟨cs2, hm⟩, hne⟩ := hmem e he
    refine ⟨⟨cs2, ?_⟩, hne⟩
    rw [nodesOf]
    exact List.mem_cons_of_mem _ hm

/-- Collection-phase facts: the collected entry identifiers form a sublist of
the pre-order identifier list (hence are pairwise distinct on a duplicate-free
tree), every entry records the text of a text node present in the tree, and
every entry's match list is nonempty. -/
theorem collect_entries :
    ∀ n : RNode, ∀ (rules : List LinkRule) (flag f : Bool)
      (es : List (Nat × List Char × List MatchRec)),
      collectNode rules n flag = some (f, es) →
      List.Sublist (es.map (fun e => e.1)) (idsOf n)
      ∧ ∀ e ∈ es, (∃ cs2, (RNode.node e.1 (.text e.2.1) cs2) ∈ nodesOf n)
        ∧ e.2.2 ≠ [] := by
  refine rnodeRec ?_
  intro i v cs ih rules flag f es h
  have hlist : ∀ (cs' : List RNode),
      (∀ c ∈ cs', ∀ (rules2 : List LinkRule) (flag2 f2 : Bool) es2,
        collectNode rules2 c flag2 = some (f2, es2) →
        List.Sublist (es2.map (fun e => e.1)) (idsOf c)
        ∧ ∀ e ∈ es2, (∃ cs2, (RNode.node e.1 (.text e.2.1) cs2) ∈ nodesOf c)
          ∧ e.2.2 ≠ []) →
      ∀ (flag2 f2 : Bool) es2, collectList rules cs' flag2 = some (f2, es2) →
        List.Sublist (es2.map (fun e => e.1)) (idsOfList cs')
        ∧ ∀ e ∈ es2, (∃ cs2, (RNode.node e.1 (.text e.2.1) cs2) ∈ nodesOfList cs')
          ∧ e.2.2 ≠ [] := by
    intro cs'
    induction cs' with
    | nil =>
      intro hpt flag2 f2 es2 hh
      rw [collectList] at hh
      have hes : es2 = [] := by cases hh; rfl
      subst hes
      exact ⟨List.nil_sublist _, fun e he => absurd he (by simp)⟩
    | cons c rest ihr =>
      intro hpt flag2 f2 es2 hh
      rw [collectList] at hh
      cases hc1 : collectNode rules c flag2 with
      | none => rw [hc1] at hh; exact absurd hh (by simp)
      | some p1 =>
        obtain ⟨f1, es1⟩ := p1
        rw [hc1] at hh
        have hhx : (match collectList rules rest f1 with
            | some (f4, es4) => some (f4, es1 ++ es4)
            | none => none) = some (f2, es2) := hh
        cases hc2 : collectList rules rest f1 with
        | none =>
          rw [hc2] at hhx
          have hh2 : (none : Option (Bool × List (Nat × List Char × List MatchRec)))
              = some (f2, es2) := hhx
          exact absurd hh2 (by simp)
        | some p2 =>
          obtain ⟨f2', es2'⟩ := p2
          rw [hc2] at hhx
          have hh2 : some (f2', es1 ++ es2') = some (f2, es2) := hhx
          have hes : es2 = es1 ++ es2' := by
            have := Option.some.inj hh2
            exact (congrArg Prod.snd this).symm
          subst hes
          obtain ⟨s1, m1⟩ := hpt c (List.mem_cons_self _ _) rules flag2 f1 es1 hc1
          obtain ⟨s2, m2⟩ := ihr (fun d hd => hpt d (List.mem_cons_of_mem _ hd))
            f1 f2' es2' hc2
          constructor
          · rw [idsOfList, List.map_append]
            exact List.Sublist.append s1 s2
          · intro e he
            rcases List.mem_append.mp he with hm | hm
            · obtain ⟨⟨cs2, hmm⟩, hne⟩ := m1 e hm
              refine ⟨⟨cs2, ?_⟩, hne⟩
              rw [nodesOfList]
              exact List.mem_append_left _ hmm
            · obtain ⟨⟨cs2, hmm⟩, hne⟩ := m2 e hm
              refine ⟨⟨cs2, ?_⟩, hne⟩
              rw [nodesOfList]
              exact List.mem_append_right _ hmm
  cases v
  case text t =>
    rw [collectNode] at h
    by_cases hf : flag
    · rw [if_pos hf] at h
      obtain ⟨hsub, hmem⟩ := hlist cs ih flag f es h
      exact collect_lift i (.text t) cs es hsub hmem
    · rw [if_neg hf] at h
      cases htm : textMatches rules t with
      | none => rw [htm] at h; exact absurd h (by simp)
      | some ms =>
        rw [htm] at h
        cases hcl : collectList rules cs flag with
        | none =>
          rw [hcl] at h
          have h2 : (none : Option (Bool × List (Nat × List Char × List MatchRec)))
              = some (f, es) := h
          exact absurd h2 (by simp)
        | some p2 =>
          obtain ⟨f2, es'⟩ := p2
          rw [hcl] at h
          have h2 : some (f2, (if ms.isEmpty then [] else [(i, t, ms)]) ++ es')
              = some (f, es) := h
          have hes : es = (if ms.isEmpty then [] else [(i, t, ms)]) ++ es' := by
            have := Option.some.inj h2
            exact (congrArg Prod.snd this).symm
          subst hes
          obtain ⟨hsub, hmem⟩ := hlist cs ih flag f2 es' hcl
          by_cases hms : ms.isEmpty
          · rw [if_pos hms, List.nil_append]
            exact collect_lift i (.text t) cs es' hsub hmem
          · rw [if_neg hms, List.singleton_append]
            constructor
            · rw [List.map_cons, idsOf]
              exact List.Sublist.cons₂ i hsub
            · intro e he
              rcases List.mem_cons.mp he with hm | hm
              · subst hm
                refine ⟨⟨cs, ?_⟩, by simpa using hms⟩
                rw [nodesOf]
                exact List.mem_cons_self _ _
              · obtain ⟨⟨cs2, hmm⟩, hne⟩ := hmem e hm
                refine ⟨⟨cs2, ?_⟩, hne⟩
                rw [nodesOf]
                exact List.mem_cons_of_mem _ hmm
  all_goals
    rw [collectNode] at h
    all_goals try (intro s hs; exact absurd hs (by simp))
    obtain ⟨hsub, hmem⟩ := hlist cs ih _ f es h
    exact collect_lift i _ cs es hsub hmem

/-- On a well-formed tree, a successful collection phase establishes the
rewrite-phase invariant, and every collected match list is nonempty. -/
theorem entriesInv_of_collect (root : RNode) (rules : List LinkRule)
    (f : Bool) (es : List (Nat × List Char × List MatchRec))
    (hg : goodTree root)
    (hc : collectNode rules root false = some (f, es)) :
    entriesInv root es ∧ ∀ e ∈ es, e.2.2 ≠ [] := by
  obtain ⟨hnd, hpos, hleaves, hroot⟩ := hg
  obtain ⟨hsub, hmem⟩ := collect_entries root rules false f es hc
  refine ⟨⟨hnd.sublist hsub, ?_⟩, fun e he => (hmem e he).2⟩
  intro e he
  obtain ⟨⟨cs2, hm⟩, hne⟩ := hmem e he
  have hcs2 : cs2 = [] := textLeaves_children_nil root hleaves e.1 e.2.1 cs2 hm
  subst hcs2
  have hid : e.1 ∈ idsOf root := id_mem_of_mem_nodesOf root _ hm
  refine ⟨?_, hm, List.count_eq_one_of_mem hnd hid, ?_⟩
  · have h1 := List.all_eq_true.mp hpos e.1 hid
    intro h0
    rw [h0] at h1
    simp at h1
  · obtain ⟨i, v, cs⟩ := root
    rw [nodesOf] at hm
    rcases List.mem_cons.mp hm with h | h
    · have hv : v = NV.text e.2.1 := by
        injection h with h1 h2 h3
        exact h2.symm
      subst hv
      exact absurd hroot (by simp [RNode.val, NV.isText])
    · obtain ⟨c, hcmem, hxc⟩ := mem_nodesOfList.mp h
      have hidc : e.1 ∈ idsOf c := id_mem_of_mem_nodesOf c _ hxc
      have hincs : e.1 ∈ idsOfList cs := mem_idsOfList.mpr ⟨c, hcmem, hidc⟩
      rw [idsOf] at hnd
      intro hcon
      have hii : (RNode.node i v cs).id = i := rfl
      rw [hii] at hcon
      exact (List.nodup_cons.mp hnd).1 (hcon ▸ hincs)

/-- C2 (amended): for every well-formed parsed tree and rule list,
`add_links` completes normally provided the matches collected for each text
node are sequential — spans ordered, non-overlapping and within the text
(`phase1Ok`).  Out-of-order or overlapping spans within one text node
instead make the splice step slice a reversed range and panic, as the
counterexample on `BARFOO` shows. -/
theorem add_links_total (rules : List LinkRule) (root : RNode)
    (hg : goodTree root) (hp : phase1Ok rules root = true) :
    ∃ r, add_links rules root = some r := by
  rw [add_links]
  cases hc : collectNode rules root false with
  | none =>
    rw [phase1Ok, hc] at hp
    exact absurd hp (by simp)
  | some p =>
    obtain ⟨f, es⟩ := p
    rw [phase1Ok, hc] at hp
    have hp2 : es.all (fun e => seqFrom e.2.1.length 0 e.2.2) = true := hp
    obtain ⟨hInv, hne⟩ := entriesInv_of_collect root rules f es hg hc
    show ∃ r, processEntries root es = some r
    refine processEntries_some es root hInv ?_
    intro e he
    exact ⟨List.all_eq_true.mp hp2 e he, hne e he⟩

/-- Witness for C2's amended theorem: the tree of `FOO *x*` with the rule
`FOO -> u` is well formed, its collection phase yields sequential matches,
and `add_links` completes. -/
theorem c2_witness :
    goodTree c1tree ∧ phase1Ok [fooRule] c1tree = true
    ∧ ∃ r, add_links [fooRule] c1tree = some r :=
  ⟨⟨by decide, by rfl, by rfl, by rfl⟩, by rfl,
    add_links_total [fooRule] c1tree ⟨by decide, by rfl, by rfl, by rfl⟩ (by rfl)⟩

theorem preVisit_map_fst :
    ∀ n : RNode, (preVisit n).map Prod.fst = idsOf n := by
  refine rnodeRec ?_
  intro i v cs ih
  have hlist : ∀ (cs' : List RNode),
      (∀ c ∈ cs', (preVisit c).map Prod.fst = idsOf c) →
      (preVisitList cs').map Prod.fst = idsOfList cs' := by
    intro cs'
    induction cs' with
    | nil => intro _; rfl
    | cons c rest ihr =>
      intro hpt
      rw [preVisitList, List.map_append, idsOfList,
        hpt c (List.mem_cons_self _ _),
        ihr (fun d hd => hpt d (List.mem_cons_of_mem _ hd))]
  rw [preVisit, idsOf, List.map_cons]
  rw [hlist cs ih]

theorem preVisitList_map_fst (cs : List RNode) :
    (preVisitList cs).map Prod.fst = idsOfList cs := by
  induction cs with
  | nil => rfl
  | cons c rest ih =>
    rw [preVisitList, List.map_append, idsOfList, preVisit_map_fst, ih]

theorem flagAfter_append (l1 l2 : List (Nat × NV)) (f : Bool) :
    flagAfter (l1 ++ l2) f = flagAfter l2 (flagAfter l1 f) := by
  simp [flagAfter, List.foldl_append]

theorem flagBefore_append_mem :
    ∀ (l1 : List (Nat × NV)) (l2 : List (Nat × NV)) (j : Nat) (f : Bool),
      j ∈ l1.map Prod.fst →
      flagBefore (l1 ++ l2) j f = flagBefore l1 j f := by
  intro l1
  induction l1 with
  | nil => intro l2 j f h; simp at h
  | cons p rest ih =>
    obtain ⟨i, v⟩ := p
    intro l2 j f h
    rw [List.cons_append, flagBefore, flagBefore]
    by_cases hij : i = j
    · rw [if_pos hij, if_pos hij]
    · rw [if_neg hij, if_neg hij]
      refine ih l2 j (flagStep f v) ?_
      rw [List.map_cons] at h
      rcases List.mem_cons.mp h with h1 | h1
      · exact absurd h1.symm hij
      · exact h1

theorem flagBefore_append_not_mem :
    ∀ (l1 : List (Nat × NV)) (l2 : List (Nat × NV)) (j : Nat) (f : Bool),
      j ∉ l1.map Prod.fst →
      flagBefore (l1 ++ l2) j f = flagBefore l2 j (flagAfter l1 f) := by
  intro l1
  induction l1 with
  | nil => intro l2 j f _; rfl
  | cons p rest ih =>
    obtain ⟨i, v⟩ := p
    intro l2 j f h
    have hij : i ≠ j := by
      intro hcon
      exact h (by simp [hcon])
    rw [List.cons_append, flagBefore, if_neg hij]
    have h2 : j ∉ rest.map Prod.fst := by
      intro hcon
      exact h (by simp [hcon])
    rw [ih l2 j (flagStep f v) h2]
    rfl

/-- The flag returned by the collection phase is `flagStep` folded over the
whole pre-order visit. -/
theorem collect_flag :
    ∀ n : RNode, ∀ (rules : List LinkRule) (flag f : Bool)
      (es : List (Nat × List Char × List MatchRec)),
      collectNode rules n flag = some (f, es) →
      f = flagAfter (preVisit n) flag := by
  refine rnodeRec ?_
  intro i v cs ih rules flag f es h
  have hlist : ∀ (cs' : List RNode),
      (∀ c ∈ cs', ∀ (rules2 : List LinkRule) (flag2 f2 : Bool) es2,
        collectNode rules2 c flag2 = some (f2, es2) →
        f2 = flagAfter (preVisit c) flag2) →
      ∀ (flag2 f2 : Bool) es2, collectList rules cs' flag2 = some (f2, es2) →
        f2 = flagAfter (preVisitList cs') flag2 := by
    intro cs'
    induction cs' with
    | nil =>
      intro hpt flag2 f2 es2 hh
      rw [collectList] at hh
      have hf : f2 = flag2 := by cases hh; rfl
      subst hf
      rfl
    | cons c rest ihr =>
      intro hpt flag2 f2 es2 hh
      rw [collectList] at hh
      cases hc1 : collectNode rules c flag2 with
      | none => rw [hc1] at hh; exact absurd hh (by simp)
      | some p1 =>
        obtain ⟨f1, es1⟩ := p1
        rw [hc1] at hh
        have hhx : (match collectList rules rest f1 with
            | some (f4, es4) => some (f4, es1 ++ es4)
            | none => none) = some (f2, es2) := hh
        cases hc2 : collectList rules rest f1 with
        | none =>
          rw [hc2] at hhx
          exact absurd (show (none : Option (Bool × List (Nat × List Char × List MatchRec)))
            = some (f2, es2) from hhx) (by simp)
        | some p2 =>
          obtain ⟨f2', es2'⟩ := p2
          rw [hc2] at hhx
          have hh2 : some (f2', es1 ++ es2') = some (f2, es2) := hhx
          have hf : f2 = f2' := by
            have := Option.some.inj hh2
            exact (congrArg Prod.fst this).symm
          have e1 := hpt c (List.mem_cons_self _ _) rules flag2 f1 es1 hc1
          have e2 := ihr (fun d hd => hpt d (List.mem_cons_of_mem _ hd)) f1 f2' es2' hc2
          rw [hf, preVisitList, flagAfter_append, ← e1]
          exact e2
  cases v
  case text t =>
    rw [collectNode] at h
    by_cases hf : flag
    · rw [if_pos hf] at h
      exact hlist cs ih flag f es h
    · rw [if_neg hf] at h
      cases htm : textMatches rules t with
      | none => rw [htm] at h; exact absurd h (by simp)
      | some ms =>
        rw [htm] at h
        cases hcl : collectList rules cs flag with
        | none =>
          rw [hcl] at h
          exact absurd (show (none : Option (Bool × List (Nat × List Char × List MatchRec)))
            = some (f, es) from h) (by simp)
        | some p2 =>
          obtain ⟨f2, es'⟩ := p2
          rw [hcl] at h
          have h2 : some (f2, (if ms.isEmpty then [] else [(i, t, ms)]) ++ es')
              = some (f, es) := h
          have hfe : f = f2 := by
            have := Option.some.inj h2
            exact (congrArg Prod.fst this).symm
          subst hfe
          exact hlist cs ih flag f es' hcl
  all_goals
    rw [collectNode] at h
    all_goals try (intro s hs; exact absurd hs (by simp))
    exact hlist cs ih _ f es h

/-- The identifiers collected from a forest form a sublist of the forest's
pre-order identifier list. -/
theorem collectList_sub :
    ∀ (cs : List RNode) (rules : List LinkRule) (flag f : Bool)
      (es : List (Nat × List Char × List MatchRec)),
      collectList rules cs flag = some (f, es) →
      List.Sublist (es.map (fun e => e.1)) (idsOfList cs) := by
  intro cs
  induction cs with
  | nil =>
    intro rules flag f es hh
    rw [collectList] at hh
    have hes : es = [] := by cases hh; rfl
    subst hes
    exact List.nil_sublist _
  | cons c rest ih =>
    intro rules flag f es hh
    rw [collectList] at hh
    cases hc1 : collectNode rules c flag with
    | none => rw [hc1] at hh; exact absurd hh (by simp)
    | some p1 =>
      obtain ⟨f1, es1⟩ := p1
      rw [hc1] at hh
      have hhx : (match collectList rules rest f1 with
          | some (f4, es4) => some (f4, es1 ++ es4)
          | none => none) = some (f, es) := hh
      cases hc2 : collectList rules rest f1 with
      | none =>
        rw [hc2] at hhx
        exact absurd (show (none : Option (Bool × List (Nat × List Char × List MatchRec)))
          = some (f, es) from hhx) (by simp)
      | some p2 =>
        obtain ⟨f2, es2⟩ := p2
        rw [hc2] at hhx
        have hh2 : some (f2, es1 ++ es2) = some (f, es) := hhx
        have hes : es = es1 ++ es2 := by
          have := Option.some.inj hh2
          exact (congrArg Prod.snd this).symm
        subst hes
        rw [List.map_append, idsOfList]
        exact List.Sublist.append ((collect_entries c rules flag f1 es1 hc1).1)
          (ih rules f1 f2 es2 hc2)

/-- A node visited while the `in_html_link` flag is set — in particular any
node inside a raw anchor span — is never collected for rewriting. -/
theorem collect_excluded :
    ∀ n : RNode, ∀ (rules : List LinkRule) (flag f : Bool)
      (es : List (Nat × List Char × List MatchRec)) (j : Nat),
      (idsOf n).Nodup →
      collectNode rules n flag = some (f, es) →
      flagBefore (preVisit n) j flag = true →
      j ∉ es.map (fun e => e.1) := by
  refine rnodeRec ?_
  intro i v cs ih rules flag f es j hnd h hfb
  have hlist : ∀ (cs' : List RNode),
      (∀ c ∈ cs', ∀ (rules2 : List LinkRule) (flag2 f2 : Bool) es2 (j2 : Nat),
        (idsOf c).Nodup →
        collectNode rules2 c flag2 = some (f2, es2) →
        flagBefore (preVisit c) j2 flag2 = true →
        j2 ∉ es2.map (fun e => e.1)) →
      ∀ (flag2 f2 : Bool) es2, (idsOfList cs').Nodup →
        collectList rules cs' flag2 = some (f2, es2) →
        flagBefore (preVisitList cs') j flag2 = true →
        j ∉ es2.map (fun e => e.1) := by
    intro cs'
    induction cs' with
    | nil =>
      intro hpt flag2 f2 es2 hnd2 hh hfb2
      rw [collectList] at hh
      have hes : es2 = [] := by cases hh; rfl
      subst hes
      simp
    | cons c rest ihr =>
      intro hpt flag2 f2 es2 hnd2 hh hfb2
      rw [collectList] at hh
      cases hc1 : collectNode rules c flag2 with
      | none => rw [hc1] at hh; exact absurd hh (by simp)
      | some p1 =>
        obtain ⟨f1, es1⟩ := p1
        rw [hc1] at hh
        have hhx : (match collectList rules rest f1 with
            | some (f4, es4) => some (f4, es1 ++ es4)
            | none => none) = some (f2, es2) := hh
        cases hc2 : collectList rules rest f1 with
        | none =>
          rw [hc2] at hhx
          exact absurd (show (none : Option (Bool × List (Nat × List Char × List MatchRec)))
            = some (f2, es2) from hhx) (by simp)
        | some p2 =>
          obtain ⟨f2', es2'⟩ := p2
          rw [hc2] at hhx
          have hh2 : some (f2', es1 ++ es2') = some (f2, es2) := hhx
          have hes : es2 = es1 ++ es2' := by
            have := Option.some.inj hh2
            exact (congrArg Prod.snd this).symm
          subst hes
          have hnds : (idsOf c ++ idsOfList rest).Nodup := by
            rw [idsOfList] at hnd2
            exact hnd2
          have hndc : (idsOf c).Nodup := (List.nodup_append.mp hnds).1
          have hndr : (idsOfList rest).Nodup := (List.nodup_append.mp hnds).2.1
          have hdisj := (List.nodup_append.mp hnds).2.2
          have hfb3 : flagBefore (preVisit c ++ preVisitList rest) j flag2 = true := by
            rw [preVisitList] at hfb2
            exact hfb2
          rw [List.map_append, List.mem_append]
          intro hcon
          by_cases hjc : j ∈ idsOf c
          · have hjm : j ∈ (preVisit c).map Prod.fst := by
              rw [preVisit_map_fst]; exact hjc
            have hfbc : flagBefore (preVisit c) j flag2 = true := by
              rw [flagBefore_append_mem _ _ _ _ hjm] at hfb3
              exact hfb3
            rcases hcon with h1 | h1
            · exact hpt c (List.mem_cons_self _ _) rules flag2 f1 es1 j hndc hc1 hfbc h1
            · have hsub := collectList_sub rest rules f1 f2' es2' hc2
              exact List.disjoint_left.mp hdisj hjc (hsub.subset h1)
          · have hjm : j ∉ (preVisit c).map Prod.fst := by
              rw [preVisit_map_fst]; exact hjc
            have hfbr : flagBefore (preVisitList rest) j (flagAfter (preVisit c) flag2)
                = true := by
              rw [flagBefore_append_not_mem _ _ _ _ hjm] at hfb3
              exact hfb3
            have hf1 : f1 = flagAfter (preVisit c) flag2 :=
              collect_flag c rules flag2 f1 es1 hc1
            rcases hcon with h1 | h1
            · have hsub := (collect_entries c rules flag2 f1 es1 hc1).1
              exact hjc (hsub.subset h1)
            · exact ihr (fun d hd => hpt d (List.mem_cons_of_mem _ hd)) f1 f2' es2'
                hndr hc2 (by rw [hf1]; exact hfbr) h1
  have hnd2 : (i :: idsOfList cs).Nodup := by rw [idsOf] at hnd; exact hnd
  have hndl : (idsOfList cs).Nodup := (List.nodup_cons.mp hnd2).2
  have hinotin : i ∉ idsOfList cs := (List.nodup_cons.mp hnd2).1
  have hfb2 : flagBefore ((i, v) :: preVisitList cs) j flag = true := by
    rw [preVisit] at hfb
    exact hfb
  by_cases hij : i = j
  · subst hij
    have hflag : flag = true := by
      rw [flagBefore, if_pos rfl] at hfb2
      exact hfb2
    have hsub : List.Sublist (es.map (fun e => e.1)) (idsOfList cs) := by
      cases v
      case text t =>
        rw [collectNode, if_pos hflag] at h
        exact collectList_sub cs rules flag f es h
      all_goals
        rw [collectNode] at h
        all_goals try (intro s hs; exact absurd hs (by simp))
        exact collectList_sub cs rules _ f es h
    intro hcon
    exact hinotin (hsub.subset hcon)
  · have hfb3 : flagBefore (preVisitList cs) j (flagStep flag v) = true := by
      rw [flagBefore, if_neg hij] at hfb2
      exact hfb2
    cases v
    · rename_i t
      have hfb4 : flagBefore (preVisitList cs) j flag = true := hfb3
      rw [collectNode] at h
      by_cases hf : flag
      · rw [if_pos hf] at h
        exact hlist cs ih flag f es hndl h hfb4
      · rw [if_neg hf] at h
        cases htm : textMatches rules t with
        | none => rw [htm] at h; exact absurd h (by simp)
        | some ms =>
          rw [htm] at h
          cases hcl : collectList rules cs flag with
          | none =>
            rw [hcl] at h
            exact absurd (show (none : Option (Bool × List (Nat × List Char × List MatchRec)))
              = some (f, es) from h) (by simp)
          | some p2 =>
            obtain ⟨f2, es'⟩ := p2
            rw [hcl] at h
            have h2 : some (f2, (if ms.isEmpty then [] else [(i, t, ms)]) ++ es')
                = some (f, es) := h
            have hes : es = (if ms.isEmpty then [] else [(i, t, ms)]) ++ es' := by
              have := Option.some.inj h2
              exact (congrArg Prod.snd this).symm
            subst hes
            rw [List.map_append, List.mem_append]
            intro hcon
            rcases hcon with h1 | h1
            · by_cases hms : ms.isEmpty
              · rw [if_pos hms] at h1
                simp at h1
              · rw [if_neg hms] at h1
                have h3 : j = i := by simpa using h1
                exact hij h3.symm
            · exact hlist cs ih flag f2 es' hndl hcl hfb4 h1
    all_goals
      rw [collectNode] at h
      all_goals try (intro s hs; exact absurd hs (by simp))
      exact hlist cs ih _ f es hndl h hfb3

/-- The rewrite phase keeps every protected text leaf: a text node that is
never the processed entry — or whose entry is skipped by the link-ancestor
check — survives each splice unchanged. -/
theorem processEntries_keeps :
    ∀ (es : List (Nat × List Char × List MatchRec)) (root out : RNode),
      entriesInv root es →
      processEntries root es = some out →
      ∀ (j : Nat) (tj : List Char),
        RNode.node j (.text tj) [] ∈ nodesOf root → j ≠ 0 →
        (j ∈ es.map (fun e => e.1) → linkOnPath root j false = true) →
        RNode.node j (.text tj) [] ∈ nodesOf out := by
  intro es
  induction es with
  | nil =>
    intro root out _ hp j tj hmem _ _
    have h2 : some root = some out := hp
    exact (Option.some.inj h2) ▸ hmem
  | cons e rest ih =>
    obtain ⟨i, ti, ms⟩ := e
    intro root out hInv hp j tj hmem hj0 hcond
    rw [processEntries] at hp
    cases hlp : linkOnPath root i false with
    | true =>
      rw [hlp, if_pos rfl] at hp
      refine ih root out
        ⟨(List.nodup_cons.mp hInv.1).2, fun e he => hInv.2 e (List.mem_cons_of_mem _ he)⟩
        hp j tj hmem hj0 ?_
      intro hin
      exact hcond (List.mem_cons_of_mem _ hin)
    | false =>
      rw [hlp, if_neg (by simp)] at hp
      cases hsp : spliceReplacements ti ms with
      | none =>
        rw [hsp] at hp
        exact absurd (show (none : Option RNode) = some out from hp) (by simp)
      | some reps =>
        rw [hsp] at hp
        have hpx : (match rewriteAt root i reps with
            | none => none
            | some root3 => processEntries root3 rest) = some out := hp
        cases hrw : rewriteAt root i reps with
        | none =>
          rw [hrw] at hpx
          exact absurd (show (none : Option RNode) = some out from hpx) (by simp)
        | some root2 =>
          rw [hrw] at hpx
          have hp2 : processEntries root2 rest = some out := hpx
          obtain ⟨hi0, him, hic, hir⟩ := hInv.2 (i, ti, ms) (List.mem_cons_self _ _)
          have hzero := splice_ids_zero ti ms reps hsp
          obtain ⟨hid, hval, hcnt, hmemb, hlink⟩ :=
            rewriteAt_preserves root i ti reps root2 him hic hzero hi0 hrw
          have hji : j ≠ i := by
            intro hcon
            have hl2 : linkOnPath root j false = true := hcond (by simp [hcon])
            rw [hcon, hlp] at hl2
            exact absurd hl2 (by simp)
          have hmem2 : RNode.node j (.text tj) [] ∈ nodesOf root2 := hmemb j tj hji hmem
          refine ih root2 out
            (entriesInv_step root root2 i ti ms rest reps hInv hzero hrw)
            hp2 j tj hmem2 hj0 ?_
          intro hin
          rw [hlink j false hji hj0]
          exact hcond (List.mem_cons_of_mem _ hin)

/-- C6 (amended): if a text node of a well-formed tree lies inside a
semantic link — the node itself or an ancestor is a link — or inside a raw
HTML anchor span opened by an inline HTML fragment starting with the
literal `<a ` (a space after the tag name, so a bare `<a>` fragment is not
recognised) and closed by one starting with `</a>`, then the Autolink
Injector leaves that text node unchanged in the output tree. -/
theorem c6_no_injection_inside_links
    (rules : List LinkRule) (root out : RNode) (j : Nat) (t : List Char)
    (hg : goodTree root)
    (hmem : RNode.node j (.text t) [] ∈ nodesOf root)
    (hprot : linkOnPath root j false = true ∨ inRawAnchorSpan root j = true)
    (hout : add_links rules root = some out) :
    RNode.node j (.text t) [] ∈ nodesOf out := by
  rw [add_links] at hout
  cases hc : collectNode rules root false with
  | none =>
    rw [hc] at hout
    exact absurd (show (none : Option RNode) = some out from hout) (by simp)
  | some p =>
    obtain ⟨f, es⟩ := p
    rw [hc] at hout
    have hout2 : processEntries root es = some out := hout
    obtain ⟨hInv, hne⟩ := entriesInv_of_collect root rules f es hg hc
    have hjid : j ∈ idsOf root := id_mem_of_mem_nodesOf root _ hmem
    have hj0 : j ≠ 0 := by
      have h1 := List.all_eq_true.mp hg.2.1 j hjid
      intro h0
      rw [h0] at h1
      simp at h1
    have hcond : j ∈ es.map (fun e => e.1) → linkOnPath root j false = true := by
      rcases hprot with hl | hr
      · intro _; exact hl
      · intro hin
        exact absurd hin (collect_excluded root rules false f es j hg.1 hc hr)
    exact processEntries_keeps es root out hInv hout2 j t hmem hj0 hcond

/-- Witness for C6's amended theorem: in the tree of `<a href=q>FOO</a>`
the text node `FOO` sits inside a recognised raw anchor span, and
`add_links` with the rule `FOO -> u` returns the tree unchanged, the text
node still present. -/
theorem c6_witness :
    goodTree c6btree
    ∧ RNode.node 4 (.text ("FOO".toList)) [] ∈ nodesOf c6btree
    ∧ inRawAnchorSpan c6btree 4 = true
    ∧ add_links [fooRule] c6btree = some c6btree
    ∧ RNode.node 4 (.text ("FOO".toList)) [] ∈ nodesOf c6btree :=
  ⟨⟨by decide, by rfl, by rfl, by rfl⟩,
    by
      have h : nodesOf c6btree =
        [c6btree,
         RNode.node 2 .paragraph
           [RNode.node 3 (.htmlInline ("<a href=q>".toList)) [],
            RNode.node 4 (.text ("FOO".toList)) [],
            RNode.node 5 (.htmlInline ("</a>".toList)) []],
         RNode.node 3 (.htmlInline ("<a href=q>".toList)) [],
         RNode.node 4 (.text ("FOO".toList)) [],
         RNode.node 5 (.htmlInline ("</a>".toList)) []] := rfl
      rw [h]
      exact List.mem_cons_of_mem _ (List.mem_cons_of_mem _ (List.mem_cons_of_mem _
        (List.mem_cons_self _ _))),
    by rfl,
    by rfl,
    c6_no_injection_inside_links [fooRule] c6btree c6btree 4 ("FOO".toList)
      ⟨by decide, by rfl, by rfl, by rfl⟩
      (by
        have h : nodesOf c6btree =
          [c6btree,
           RNode.node 2 .paragraph
             [RNode.node 3 (.htmlInline ("<a href=q>".toList)) [],
              RNode.node 4 (.text ("FOO".toList)) [],
              RNode.node 5 (.htmlInline ("</a>".toList)) []],
           RNode.node 3 (.htmlInline ("<a href=q>".toList)) [],
           RNode.node 4 (.text ("FOO".toList)) [],
           RNode.node 5 (.htmlInline ("</a>".toList)) []] := rfl
        rw [h]
        exact List.mem_cons_of_mem _ (List.mem_cons_of_mem _ (List.mem_cons_of_mem _
          (List.mem_cons_self _ _))))
      (Or.inr (by rfl))
      (by rfl)⟩

end IndicoMd
